import Mathlib

/-!
# Validator admission and round sealing (yunsite/mixin)

A shallow embedding of `common/node.go` (`validateNodePledge`,
`validateNodeAccept`) and of `kernel/round.go` (`LoadRoundGraph`,
`loadHeadRoundForNode`, `loadFinalRoundForNode`, `Print`, `UpdateFinalCache`,
`Copy`, `asFinal`), followed by theorems about them.

Conventions of the embedding.

* A Go byte slice or byte array is a `List Nat`; `crypto.Key` and `crypto.Hash`
  are 32-byte arrays.
* A Go `error` value is a value of `Error`; the `nil` error is `Outcome.nil`.
  A run-time panic (nil dereference, index out of range) is `Outcome.panic`.
  A function that returns a value and an error returns a `Load`.
* Go pointers held in slices and maps (`[]*Output`, `[]*Node`,
  `map[string]*UTXO`, `[]*common.Snapshot`) are taken to be non-nil. The
  pointer returned by `ReadTransaction` is an `Option`, because the store of
  `transaction_test.go` returns `nil, nil`; so are the round metadata
  `ReadRound` returns and the entries of the maps of the graph.
* A store is a function of the arguments of its methods: reading twice gives
  the same answer.
* The packages `crypto` and the rest of `common` are not part of the embedded
  sources; what the embedded functions use of them is a field of `Env`.
* Values are shared in `Copy` only; there rounds live in an explicit `Heap`.
-/

namespace Mixin

/-! ## Data model -/

/-- The type `crypto.Key`, a `[32]byte`. -/
abbrev Key := List Nat

/-- The type `crypto.Hash`, a `[32]byte`. -/
abbrev Hash := List Nat

/-- The length `len(crypto.Key{})`. -/
def KeySize : Nat := 32

/-- The zero value of `crypto.Key`. -/
def zeroKey : Key := List.replicate KeySize 0

/-- Go's builtin `copy(dst, src)`: the first `min (len dst) (len src)` bytes of
`dst` are overwritten with those of `src`, the rest of `dst` is kept. -/
def copyBytes (dst src : List Nat) : List Nat :=
  src.take dst.length ++ dst.drop src.length

/-- Modelled from the spec: the type `common.Integer` is declared outside the
embedded sources; an amount is a natural number of units of the base asset. -/
abbrev Integer := Nat

/-- Modelled from the spec: `common.NewInteger`, declared outside the embedded
sources, turns a count of units of the base asset into an amount. -/
def NewInteger (x : Nat) : Integer := x

/-- Modelled from the spec: `Integer.Add`, declared outside the embedded sources,
is the sum of two amounts. -/
def Integer.Add (x y : Integer) : Integer := x + y

/-- Modelled from the spec: `Integer.Cmp`, declared outside the embedded sources,
compares two amounts and gives -1, 0 or 1. -/
def Integer.Cmp (x y : Integer) : Int :=
  if x < y then -1 else if x = y then 0 else 1

/-- The type `common.Address`; `transaction_test.go` names its four keys. -/
structure Address where
  PrivateSpendKey : Key
  PrivateViewKey : Key
  PublicSpendKey : Key
  PublicViewKey : Key
deriving DecidableEq, Repr

/-- The type `common.Input`, as far as `node.go` reads it. -/
structure Input where
  Hash : Hash
  Index : Int
deriving DecidableEq, Repr

/-- The type `common.Output`, as far as `node.go` reads it; `Typ` is its field
`Type`. -/
structure Output where
  Typ : Nat
  Amount : Integer
deriving DecidableEq, Repr

/-- The type `common.UTXO`: an `Input` and an `Output` embedded side by side, so
that `in.Type` is the type of the output. -/
structure UTXO where
  input : Input
  output : Output
deriving DecidableEq, Repr

/-- The type `common.Transaction` (and `VersionedTransaction`, which embeds it),
as far as `node.go` reads it. -/
structure Transaction where
  Inputs : List Input
  Outputs : List Output
  Extra : List Nat
deriving DecidableEq, Repr

def NodeStatePledging : String := "PLEDGING"
def NodeStateAccepted : String := "ACCEPTED"
def NodeStateDeparting : String := "DEPARTING"

/-- The type `common.Node`. -/
structure Node where
  Signer : Address
  Payee : Address
  State : String
deriving DecidableEq, Repr

/-- The method `Node.IsAccepted`. -/
def Node.IsAccepted (n : Node) : Bool := n.State == NodeStateAccepted

/-- A Go `error` value: one constructor for each `fmt.Errorf` of `node.go`,
holding the formatted arguments, and `other` for every error made elsewhere
(by the store). -/
inductive Error where
  | pledgeOutputsCount (n : Nat)
  | pledgeExtraLength (n : Nat)
  | utxoType (t : Nat)
  | pledgeAmount (a : Integer)
  | nodePendingState (signer state : String)
  | acceptOutputsCount (n : Nat)
  | acceptInputsCount (n : Nat)
  | pledgingNodes (first second : String)
  | noPledgingNode
  | acceptUtxoCount (n : Nat)
  | acceptUtxoType (t : Nat)
  | acceptUtxoSource (state : String)
  | pledgeUtxoCount (n : Nat)
  | pledgeUtxoType (t : Nat)
  | pledgeUtxoSource (state : String)
  | acceptInputAmount (ao po nodesAmount : Integer)
  | other (msg : String)
deriving DecidableEq, Repr

/-- The type `common.Snapshot`, as far as `round.go` reads its fields; `Payload`
is the byte sequence its method `Payload()` returns. -/
structure Snapshot where
  NodeId : Hash
  RoundNumber : Nat
  Timestamp : Nat
  Payload : List Nat
deriving DecidableEq, Repr

/-- A panic of the embedded code: the two run-time panics, `panic(*s)` with a
snapshot and `panic(...)` with a string. -/
inductive Panic where
  | nilDereference
  | indexOutOfRange
  | snapshot (s : Snapshot)
  | message (msg : String)
deriving DecidableEq, Repr

/-- What a call of a validator does: return `nil`, return an error, or panic. -/
inductive Outcome where
  | nil
  | error (e : Error)
  | panic (p : Panic)
deriving DecidableEq, Repr

/-- The interface `common.DataStore`, as far as `node.go` calls it.
`ReadTransaction` returns Go's pair `(*VersionedTransaction, error)`. -/
structure DataStore where
  ReadConsensusNodes : List Node
  ReadTransaction : Hash → Option Transaction × Option Error

/-- The type `kernel.CacheRound`. -/
structure CacheRound where
  NodeId : Hash
  Number : Nat
  Start : Nat
  References : Hash × Hash
  End : Nat
  Snapshots : List Snapshot
deriving DecidableEq, Repr

/-- The type `kernel.FinalRound`. -/
structure FinalRound where
  NodeId : Hash
  Number : Nat
  Start : Nat
  End : Nat
  Hash : Hash
deriving DecidableEq, Repr

/-- What `node.go` and `round.go` take from outside the embedded sources: the
output type constants of `common`, the functions of `crypto` (among them
`Hash.String`, `Hash.ForNetwork`), the method `Snapshot.PayloadHash` and the
method `Hash` of an account. -/
structure Env where
  OutputTypeScript : Nat
  OutputTypeNodePledge : Nat
  OutputTypeNodeAccept : Nat
  DeterministicHashDerive : Key → Key
  Public : Key → Key
  AddressString : Address → String
  NewHash : List Nat → Hash
  PayloadHash : Snapshot → Hash
  HashString : Hash → String
  AddressHash : Address → Hash
  ForNetwork : Hash → Hash → Hash

/-! ## `validateNodePledge` -/

/-- The loop `for _, in := range inputs` of `validateNodePledge`; the list holds
the entries of the map in the order the loop visits them. -/
def pledgeInputsLoop (env : Env) : List (String × UTXO) → Option Error
  | [] => none
  | kv :: rest =>
    if kv.2.output.Typ ≠ env.OutputTypeScript then
      some (Error.utxoType kv.2.output.Typ)
    else pledgeInputsLoop env rest

/-- The loop `for _, n := range store.ReadConsensusNodes()` of
`validateNodePledge`. -/
def pledgeNodesLoop (env : Env) : List Node → Option Error
  | [] => none
  | n :: rest =>
    if n.State ≠ NodeStateAccepted then
      some (Error.nodePendingState (env.AddressString n.Signer) n.State)
    else pledgeNodesLoop env rest

/-- The method `Transaction.validateNodePledge` of `common/node.go`. -/
def validateNodePledge (env : Env) (tx : Transaction) (store : DataStore)
    (inputs : List (String × UTXO)) : Outcome :=
  if tx.Outputs.length ≠ 1 then
    Outcome.error (Error.pledgeOutputsCount tx.Outputs.length)
  else if tx.Extra.length ≠ 2 * KeySize then
    Outcome.error (Error.pledgeExtraLength tx.Extra.length)
  else
    match pledgeInputsLoop env inputs with
    | some e => Outcome.error e
    | none =>
      match tx.Outputs[0]? with
      | none => Outcome.panic Panic.indexOutOfRange
      | some o =>
        if Integer.Cmp o.Amount (NewInteger 10000) ≠ 0 then
          Outcome.error (Error.pledgeAmount o.Amount)
        else
          match pledgeNodesLoop env store.ReadConsensusNodes with
          | some e => Outcome.error e
          | none => Outcome.nil

/-! ## `validateNodeAccept` -/

/-- A Go `map[string]string`: a lookup of an absent key gives the empty
string. -/
abbrev StateMap := String → String

/-- The map `make(map[string]string)`. -/
def StateMap.empty : StateMap := fun _ => ""

/-- The assignment `m[k] = v`. -/
def StateMap.set (m : StateMap) (k v : String) : StateMap :=
  fun k' => if k' = k then v else m k'

/-- How the membership loop of `validateNodeAccept` ends: it runs to the end of
the table with the local variables `pledging` and `filter`, returns an error, or
panics. -/
inductive Membership where
  | done (pledging : Option Node) (filter : StateMap)
  | error (e : Error)
  | panic (p : Panic)

/-- The loop `for _, n := range nodes` of `validateNodeAccept`, from the state
`pledging`, `filter` of its local variables. In the last branch
`pledging.Signer` is read, which panics while `pledging` is `nil`. -/
def acceptNodesLoop (env : Env) : List Node → Option Node → StateMap → Membership
  | [], pledging, filter => Membership.done pledging filter
  | n :: rest, pledging, filter =>
    let filter := filter.set (env.AddressString n.Signer) n.State
    if n.State = NodeStateDeparting then
      Membership.error (Error.nodePendingState (env.AddressString n.Signer) n.State)
    else if n.State = NodeStateAccepted then
      acceptNodesLoop env rest pledging filter
    else if n.State = NodeStatePledging ∧ pledging.isNone then
      acceptNodesLoop env rest (some n) filter
    else
      match pledging with
      | none => Membership.panic Panic.nilDereference
      | some p =>
        Membership.error
          (Error.pledgingNodes (env.AddressString p.Signer) (env.AddressString n.Signer))

/-- The address `Address{PublicViewKey: privateView.Public(), PublicSpendKey:
publicSpend}` with `privateView := publicSpend.DeterministicHashDerive()`; the
two private keys keep their zero value. -/
def deriveAddress (env : Env) (publicSpend : Key) : Address :=
  { PrivateSpendKey := zeroKey
    PrivateViewKey := zeroKey
    PublicSpendKey := publicSpend
    PublicViewKey := env.Public (env.DeterministicHashDerive publicSpend) }

/-- The method `Transaction.validateNodeAccept` of `common/node.go`. The local
variable `publicSpend` is declared once, zero, and is the destination of both
`copy` calls. In `uint64(10000 * len(nodes))` the `int` is taken 64 bits wide,
where a slice of pointers long enough for the product to wrap does not fit the
address space; the product is the one of the natural numbers. -/
def validateNodeAccept (env : Env) (tx : Transaction) (store : DataStore) : Outcome :=
  if tx.Outputs.length ≠ 1 then
    Outcome.error (Error.acceptOutputsCount tx.Outputs.length)
  else if tx.Inputs.length ≠ 2 then
    Outcome.error (Error.acceptInputsCount tx.Inputs.length)
  else
    let nodes := store.ReadConsensusNodes
    match acceptNodesLoop env nodes none StateMap.empty with
    | Membership.error e => Outcome.error e
    | Membership.panic p => Outcome.panic p
    | Membership.done none _ => Outcome.error Error.noPledgingNode
    | Membership.done (some _) filter =>
      match tx.Inputs[0]? with
      | none => Outcome.panic Panic.indexOutOfRange
      | some in0 =>
        match store.ReadTransaction in0.Hash with
        | (_, some err) => Outcome.error err
        | (none, none) => Outcome.panic Panic.nilDereference
        | (some lastAccept, none) =>
          match lastAccept.Outputs[0]? with
          | none => Outcome.panic Panic.indexOutOfRange
          | some ao =>
            if lastAccept.Outputs.length ≠ 1 then
              Outcome.error (Error.acceptUtxoCount lastAccept.Outputs.length)
            else if ao.Typ ≠ env.OutputTypeNodeAccept then
              Outcome.error (Error.acceptUtxoType ao.Typ)
            else
              let publicSpend := copyBytes zeroKey lastAccept.Extra
              let acc := deriveAddress env publicSpend
              if filter (env.AddressString acc) ≠ NodeStateAccepted then
                Outcome.error (Error.acceptUtxoSource (filter (env.AddressString acc)))
              else
                match tx.Inputs[1]? with
                | none => Outcome.panic Panic.indexOutOfRange
                | some in1 =>
                  match store.ReadTransaction in1.Hash with
                  | (_, some err) => Outcome.error err
                  | (none, none) => Outcome.panic Panic.nilDereference
                  | (some lastPledge, none) =>
                    match lastPledge.Outputs[0]? with
                    | none => Outcome.panic Panic.indexOutOfRange
                    | some po =>
                      if lastPledge.Outputs.length ≠ 1 then
                        Outcome.error (Error.pledgeUtxoCount lastPledge.Outputs.length)
                      else if po.Typ ≠ env.OutputTypeNodePledge then
                        Outcome.error (Error.pledgeUtxoType po.Typ)
                      else
                        let publicSpend := copyBytes publicSpend lastPledge.Extra
                        let acc := deriveAddress env publicSpend
                        if filter (env.AddressString acc) ≠ NodeStatePledging then
                          Outcome.error (Error.pledgeUtxoSource (filter (env.AddressString acc)))
                        else
                          let nodesAmount := NewInteger (10000 * nodes.length)
                          if Integer.Cmp (Integer.Add ao.Amount po.Amount) nodesAmount ≠ 0 then
                            Outcome.error (Error.acceptInputAmount ao.Amount po.Amount nodesAmount)
                          else Outcome.nil

/-! ## `CacheRound.asFinal` -/

/-- Modelled from the spec: `crypto.Hash.ByteOr`, declared outside the embedded
sources, is the bytewise OR of two hashes. -/
def ByteOr (h o : Hash) : Hash := List.zipWith (fun a b => a ||| b) h o

/-- The eight bytes `binary.BigEndian.PutUint64(buf, v)` writes into `buf`. -/
def putUint64 (v : Nat) : List Nat :=
  [v / 2 ^ 56 % 256, v / 2 ^ 48 % 256, v / 2 ^ 40 % 256, v / 2 ^ 32 % 256,
   v / 2 ^ 24 % 256, v / 2 ^ 16 % 256, v / 2 ^ 8 % 256, v % 256]

/-- The loop `for _, s := range c.Snapshots` of `asFinal`, from the state
`hash`, `start`, `end` of its local variables. -/
def asFinalLoop (env : Env) : List Snapshot → Hash → Nat → Nat → Hash × Nat × Nat
  | [], hash, start, endT => (hash, start, endT)
  | s :: rest, hash, start, endT =>
    let hash := ByteOr hash (env.PayloadHash s)
    let start := if s.Timestamp < start then s.Timestamp else start
    let endT := if s.Timestamp > endT then s.Timestamp else endT
    asFinalLoop env rest hash start endT

/-- The method `CacheRound.asFinal` of `kernel/round.go`; `c.Snapshots[0]`
panics on an empty sequence. -/
def CacheRound.asFinal (env : Env) (c : CacheRound) : Except Panic FinalRound :=
  let buf := putUint64 c.Number
  let hash := env.NewHash (c.NodeId ++ buf)
  match c.Snapshots[0]? with
  | none => Except.error Panic.indexOutOfRange
  | some s0 =>
    let r := asFinalLoop env c.Snapshots hash s0.Timestamp 0
    Except.ok
      { NodeId := c.NodeId
        Number := c.Number
        Start := r.2.1
        End := r.2.2
        Hash := r.1 }

/-! ## The round graph of `kernel/round.go` -/

/-- The zero value of `crypto.Hash`. -/
def zeroHash : Hash := List.replicate 32 0

/-- The round metadata `ReadRound` returns, as far as `round.go` reads it. -/
structure RoundMeta where
  Number : Nat
  Timestamp : Nat
  References : Hash × Hash
deriving DecidableEq, Repr

/-- A validator as `storage.Store.ReadConsensusNodes` returns it; `round.go`
reads its field `Account` only. -/
structure ConsensusNode where
  Account : Address
deriving DecidableEq, Repr

/-- The interface `storage.Store`, as far as `round.go` calls it. Each method
returns Go's pair of a value and an error; a `nil` slice is the empty list. -/
structure Store where
  ReadConsensusNodes : List ConsensusNode
  ReadRound : Hash → Option RoundMeta × Option Error
  ReadSnapshotsForNodeRound : Hash → Nat → List Snapshot × Option Error

/-- What a call of a loading function does: return a value and a `nil` error,
return an error (and no value), or panic. -/
inductive Load (α : Type) where
  | ok (a : α)
  | error (e : Error)
  | panic (p : Panic)
deriving DecidableEq, Repr

/-- A Go `map[crypto.Hash]*T`: its entries, one for each key. The order of the
list stands for the order a `range` over the map visits them in. -/
abbrev RoundMap (α : Type) := List (Hash × α)

/-- The lookup `m[k]`, `nil` for an absent key. -/
def RoundMap.get {α : Type} (m : RoundMap α) (k : Hash) : Option α :=
  match m with
  | [] => none
  | kv :: rest => if kv.1 = k then some kv.2 else RoundMap.get rest k

/-- The assignment `m[k] = v`. -/
def RoundMap.set {α : Type} (m : RoundMap α) (k : Hash) (v : α) : RoundMap α :=
  match m with
  | [] => [(k, v)]
  | kv :: rest => if kv.1 = k then (k, v) :: rest else kv :: RoundMap.set rest k v

/-- The type `kernel.RoundGraph`. -/
structure RoundGraph where
  Nodes : List Hash
  CacheRound : RoundMap Mixin.CacheRound
  FinalRound : RoundMap Mixin.FinalRound
  FinalCache : List Mixin.FinalRound
deriving DecidableEq, Repr

/-- The method `RoundGraph.UpdateFinalCache`. -/
def RoundGraph.UpdateFinalCache (g : RoundGraph) : RoundGraph :=
  { g with
    FinalCache := g.FinalRound.map fun kv =>
      { NodeId := kv.2.NodeId, Number := kv.2.Number, Start := kv.2.Start, End := 0,
        Hash := zeroHash } }

/-- The loop `for _, id := range g.Nodes` of `Print`, from the value `desc` of
the local variable. Reading `final.Number` or `cache.Number` panics when the
map has no entry for `id`. -/
def printLoop (env : Env) (g : RoundGraph) : List Hash → String → Except Panic String
  | [], desc => Except.ok desc
  | id :: rest, desc =>
    let desc := desc ++ ("NODE# " ++ env.HashString id ++ "\n")
    match g.FinalRound.get id with
    | none => Except.error Panic.nilDereference
    | some final =>
      let desc := desc ++ ("FINAL " ++ Nat.repr final.Number ++ " " ++ Nat.repr final.Start ++
        " " ++ env.HashString final.Hash ++ "\n")
      match g.CacheRound.get id with
      | none => Except.error Panic.nilDereference
      | some cache =>
        let desc := desc ++ ("CACHE " ++ Nat.repr cache.Number ++ " " ++
          Nat.repr cache.Start ++ "\n")
        printLoop env g rest desc

/-- The method `RoundGraph.Print`. -/
def RoundGraph.Print (env : Env) (g : RoundGraph) : Except Panic String :=
  match printLoop env g g.Nodes "ROUND GRAPH BEGIN\n" with
  | Except.error p => Except.error p
  | Except.ok desc => Except.ok (desc ++ "ROUND GRAPH END")

/-- The loop `for _, s := range round.Snapshots` of `loadHeadRoundForNode`, from
the value `endT` of `round.End`. -/
def loadHeadLoop (env : Env) (nodeId : Hash) (start : Nat) :
    List Snapshot → Nat → Except Panic Nat
  | [], endT => Except.ok endT
  | s :: rest, endT =>
    if s.Timestamp < start then Except.error (Panic.message (env.HashString nodeId))
    else loadHeadLoop env nodeId start rest (if s.Timestamp > endT then s.Timestamp else endT)

/-- The function `loadHeadRoundForNode` of `kernel/round.go`. -/
def loadHeadRoundForNode (env : Env) (store : Store) (nodeIdWithNetwork : Hash) :
    Load (Option CacheRound) :=
  match store.ReadRound nodeIdWithNetwork with
  | (_, some err) => Load.error err
  | (none, none) => Load.ok none
  | (some meta, none) =>
    match store.ReadSnapshotsForNodeRound nodeIdWithNetwork meta.Number with
    | (_, some err) => Load.error err
    | (snapshots, none) =>
      match loadHeadLoop env nodeIdWithNetwork meta.Timestamp snapshots 0 with
      | Except.error p => Load.panic p
      | Except.ok endT =>
        Load.ok (some
          { NodeId := nodeIdWithNetwork
            Number := meta.Number
            Start := meta.Timestamp
            References := meta.References
            End := endT
            Snapshots := snapshots })

/-- The loop `for _, s := range snapshots` of `loadFinalRoundForNode`, from the
value `hashes` of the local variable. -/
def loadFinalLoop (env : Env) (start endT : Nat) :
    List Snapshot → List Nat → Except Panic (List Nat)
  | [], hashes => Except.ok hashes
  | s :: rest, hashes =>
    let h := env.NewHash s.Payload
    let hashes := hashes ++ h
    if s.Timestamp < start then Except.error (Panic.snapshot s)
    else if s.Timestamp > endT then Except.error (Panic.snapshot s)
    else loadFinalLoop env start endT rest hashes

/-- The function `loadFinalRoundForNode` of `kernel/round.go`; `snapshots[0]`
panics on an empty sequence. -/
def loadFinalRoundForNode (env : Env) (store : Store) (nodeIdWithNetwork : Hash)
    (number : Nat) : Load FinalRound :=
  match store.ReadSnapshotsForNodeRound nodeIdWithNetwork number with
  | (_, some err) => Load.error err
  | (snapshots, none) =>
    match snapshots[0]? with
    | none => Load.panic Panic.indexOutOfRange
    | some first =>
      match snapshots[snapshots.length - 1]? with
      | none => Load.panic Panic.indexOutOfRange
      | some last =>
        let start := first.Timestamp
        let endT := last.Timestamp
        let buf := putUint64 number
        let hashes := nodeIdWithNetwork ++ buf
        match loadFinalLoop env start endT snapshots hashes with
        | Except.error p => Load.panic p
        | Except.ok hashes =>
          Load.ok
            { NodeId := nodeIdWithNetwork
              Number := number
              Start := start
              End := endT
              Hash := env.NewHash hashes }

/-- The round `&CacheRound{NodeId: id, Number: 1, Start: 0}`. -/
def seedCacheRound (id : Hash) : CacheRound :=
  { NodeId := id, Number := 1, Start := 0, References := (zeroHash, zeroHash), End := 0,
    Snapshots := [] }

/-- The body of the loop `for _, cn := range consensusNodes` of
`LoadRoundGraph`, on the graph under construction: the graph the iteration
leaves (also after `continue`), the error it returns, or its panic. In
`cache.Number - 1` the subtraction wraps for the number 0 only, and the next
statement replaces the result then. -/
def loadRoundGraphStep (env : Env) (store : Store) (networkId : Hash) (cn : ConsensusNode)
    (graph : RoundGraph) : Load RoundGraph :=
  let id := env.ForNetwork (env.AddressHash cn.Account) networkId
  let graph := { graph with Nodes := graph.Nodes ++ [id] }
  match loadHeadRoundForNode env store id with
  | Load.error err => Load.error err
  | Load.panic p => Load.panic p
  | Load.ok none => Load.ok graph
  | Load.ok (some cache) =>
    let graph := { graph with CacheRound := graph.CacheRound.set cache.NodeId cache }
    let finalRoundNumber := cache.Number - 1
    let finalRoundNumber := if cache.Number = 0 then cache.Number else finalRoundNumber
    let graph :=
      if cache.Number = 0 then
        { graph with CacheRound := graph.CacheRound.set id (seedCacheRound id) }
      else graph
    match loadFinalRoundForNode env store id finalRoundNumber with
    | Load.error err => Load.error err
    | Load.panic p => Load.panic p
    | Load.ok final =>
      Load.ok { graph with FinalRound := graph.FinalRound.set final.NodeId final }

/-- The loop `for _, cn := range consensusNodes` of `LoadRoundGraph`, from the
value `graph` of the graph under construction. -/
def loadRoundGraphLoop (env : Env) (store : Store) (networkId : Hash) :
    List ConsensusNode → RoundGraph → Load RoundGraph
  | [], graph => Load.ok graph
  | cn :: rest, graph =>
    match loadRoundGraphStep env store networkId cn graph with
    | Load.error err => Load.error err
    | Load.panic p => Load.panic p
    | Load.ok graph => loadRoundGraphLoop env store networkId rest graph

/-- The function `LoadRoundGraph` of `kernel/round.go`. The argument of
`logger.Println` is evaluated, so `Print` runs, before `UpdateFinalCache`. -/
def LoadRoundGraph (env : Env) (store : Store) (networkId : Hash) : Load RoundGraph :=
  let graph : RoundGraph := { Nodes := [], CacheRound := [], FinalRound := [], FinalCache := [] }
  match loadRoundGraphLoop env store networkId store.ReadConsensusNodes graph with
  | Load.error err => Load.error err
  | Load.panic p => Load.panic p
  | Load.ok graph =>
    match graph.Print env with
    | Except.error p => Load.panic p
    | Except.ok _ => Load.ok graph.UpdateFinalCache

/-! ## Predicates used in the statements -/

/-- The number of validators of a table in state `PLEDGING`. -/
def pledgingCount (nodes : List Node) : Nat :=
  nodes.countP (fun n => n.State = NodeStatePledging)

/-- Every check of `validateNodeAccept` before the comparison of the amounts
passes: `p` and `filter` are what the membership loop leaves, `lastAccept` and
`lastPledge` the transactions read for the two inputs, `ao` and `po` their sole
outputs. -/
def AcceptSources (env : Env) (tx : Transaction) (store : DataStore) (p : Node)
    (filter : StateMap) (lastAccept lastPledge : Transaction) (ao po : Output) : Prop :=
  tx.Outputs.length = 1 ∧
  (∃ in0 in1, tx.Inputs = [in0, in1] ∧
    store.ReadTransaction in0.Hash = (some lastAccept, none) ∧
    store.ReadTransaction in1.Hash = (some lastPledge, none)) ∧
  acceptNodesLoop env store.ReadConsensusNodes none StateMap.empty =
    Membership.done (some p) filter ∧
  lastAccept.Outputs = [ao] ∧ ao.Typ = env.OutputTypeNodeAccept ∧
  filter (env.AddressString (deriveAddress env (copyBytes zeroKey lastAccept.Extra))) =
    NodeStateAccepted ∧
  lastPledge.Outputs = [po] ∧ po.Typ = env.OutputTypeNodePledge ∧
  filter (env.AddressString (deriveAddress env
    (copyBytes (copyBytes zeroKey lastAccept.Extra) lastPledge.Extra))) = NodeStatePledging

/-- The id `cn.Account.Hash().ForNetwork(networkId)` of a validator. -/
def validatorId (env : Env) (networkId : Hash) (cn : ConsensusNode) : Hash :=
  env.ForNetwork (env.AddressHash cn.Account) networkId

/-- The number of the round `LoadRoundGraph` finalizes for a head round of number
`n`: `n - 1`, and 0 for the head round 0. -/
def finalNumber (n : Nat) : Nat := if n = 0 then n else n - 1

/-- The entries of the two maps of a graph are what the store gives: for every
id either both maps have no entry, or the head round and the round to finalize
load and the maps hold them, with the seeded round in place of a head round of
number 0. -/
def GraphEntries (env : Env) (store : Store) (g : RoundGraph) : Prop :=
  ∀ id, (g.CacheRound.get id = none ∧ g.FinalRound.get id = none) ∨
    ∃ cache f, loadHeadRoundForNode env store id = Load.ok (some cache) ∧
      loadFinalRoundForNode env store id (finalNumber cache.Number) = Load.ok f ∧
      g.CacheRound.get id = some (if cache.Number = 0 then seedCacheRound id else cache) ∧
      g.FinalRound.get id = some f

/-- The graph `LoadRoundGraph` starts from. -/
def emptyGraph : RoundGraph := { Nodes := [], CacheRound := [], FinalRound := [], FinalCache := [] }

/-! ## Concrete inputs

A small instance of the outside world, on which the embedded functions are
evaluated: stand-ins for the functions of `crypto`, two validators and the
transactions that hold their bonds. -/

/-- A stand-in for `crypto.NewHash`: the first 32 bytes of the input, padded
with zeros. -/
def sampleNewHash (b : List Nat) : Hash := (b ++ List.replicate 32 0).take 32

def sampleEnv : Env where
  OutputTypeScript := 0
  OutputTypeNodePledge := 163
  OutputTypeNodeAccept := 164
  DeterministicHashDerive := fun k => k.reverse
  Public := fun k => k.map (fun b => (b + 1) % 256)
  AddressString := fun a => String.mk (a.PublicSpendKey.map Char.ofNat)
  NewHash := sampleNewHash
  PayloadHash := fun s => sampleNewHash s.Payload
  HashString := fun h => String.mk (h.map Char.ofNat)
  AddressHash := fun a => sampleNewHash a.PublicSpendKey
  ForNetwork := fun h n => List.zipWith (fun a b => (a + b) % 256) h n

def keyA : Key := List.replicate 32 65
def keyP : Key := List.replicate 32 80

/-- The validator whose signer is derived from the spend key `k`. -/
def sampleNode (k : Key) (state : String) : Node :=
  { Signer := deriveAddress sampleEnv k, Payee := deriveAddress sampleEnv k, State := state }

def nodeA : Node := sampleNode keyA NodeStateAccepted
def nodeP : Node := sampleNode keyP NodeStatePledging

def hashA : Hash := List.replicate 32 1
def hashP : Hash := List.replicate 32 2

/-- A transaction with one output of type `typ` and amount `amount`. -/
def sourceTx (typ amount : Nat) (extra : List Nat) : Transaction :=
  { Inputs := [], Outputs := [{ Typ := typ, Amount := amount }], Extra := extra }

/-- The transaction that holds the bond of the accepted validator. -/
def txA : Transaction := sourceTx 164 10000 keyA

/-- The pledge transaction of the pledging validator. -/
def txP : Transaction := sourceTx 163 10000 (keyP ++ keyP)

/-- A store with the table `nodes` that answers `ra` for the hash `hashA`, `rp`
for the hash `hashP` and, as the store of `transaction_test.go`, `nil, nil` for
every other hash. -/
def storeWith (nodes : List Node) (ra rp : Option Transaction × Option Error) : DataStore where
  ReadConsensusNodes := nodes
  ReadTransaction := fun h => if h = hashA then ra else if h = hashP then rp else (none, none)

def sampleStore : DataStore := storeWith [nodeA, nodeP] (some txA, none) (some txP, none)

/-- An accept transaction that spends the outputs of `hashA` and `hashP` into
one output of amount `amount`. -/
def acceptTx (amount : Nat) : Transaction :=
  { Inputs := [{ Hash := hashA, Index := 0 }, { Hash := hashP, Index := 0 }],
    Outputs := [{ Typ := 164, Amount := amount }], Extra := [] }

/-- The key `copy` leaves in `publicSpend` when a key of `keyA` is overwritten
with the single byte 80. -/
def keyMixed : Key := 80 :: List.replicate 31 65

/-- A transaction with a pledge output whose `Extra` is one byte long. -/
def txPShort : Transaction := sourceTx 163 10000 [80]

/-- A store whose pledging validator signs with the address of `keyMixed` and
whose pledge transaction is `txPShort`. -/
def shortExtraStore : DataStore :=
  storeWith [nodeA, sampleNode keyMixed NodeStatePledging] (some txA, none)
    (some txPShort, none)

/-- A transaction without outputs. -/
def txNoOutputs : Transaction := { Inputs := [], Outputs := [], Extra := keyA }

/-- A snapshot of the sample validator with timestamp `t` and payload `[b]`. -/
def sampleSnapshot (t b : Nat) : Snapshot :=
  { NodeId := hashA, RoundNumber := 7, Timestamp := t, Payload := [b] }

/-- An open round of the sample validator with the snapshots `snapshots`. -/
def sampleRound (snapshots : List Snapshot) : CacheRound :=
  { NodeId := hashA, Number := 7, Start := 0, References := (hashA, hashP), End := 0,
    Snapshots := snapshots }

/-- The validator account with the spend key `k`. -/
def sampleAccount (k : Key) : ConsensusNode := { Account := deriveAddress sampleEnv k }

/-- The network id of the sample: with it the id of `sampleAccount k` is the
first 32 bytes of `k`. -/
def sampleNetwork : Hash := List.replicate 32 0

/-- A store with the validators `nodes` that answers `head` to `ReadRound` and
`snaps number` to `ReadSnapshotsForNodeRound`, for every validator alike. -/
def roundStore (nodes : List ConsensusNode) (head : Option RoundMeta × Option Error)
    (snaps : Nat → List Snapshot × Option Error) : Store where
  ReadConsensusNodes := nodes
  ReadRound := fun _ => head
  ReadSnapshotsForNodeRound := fun _ number => snaps number

/-- Round metadata with the number `number` and the timestamp `timestamp`. -/
def sampleMeta (number timestamp : Nat) : RoundMeta :=
  { Number := number, Timestamp := timestamp, References := (hashA, hashP) }

/-- The spend key of a second accepted validator. -/
def keyB : Key := List.replicate 32 66

/-- A table with two accepted validators and a pledging one whose signer is
derived from `keyMixed`. -/
def threeNodes : List Node :=
  [nodeA, sampleNode keyB NodeStateAccepted, sampleNode keyMixed NodeStatePledging]

/-! ## `Copy`: rounds in memory

`Copy` is about sharing: the claim that a copy can be changed without changing
its source needs the memory the two live in. The heap below holds the backing
arrays of the `Snapshots` slices and the structs the `*CacheRound` and
`*FinalRound` pointers point to; an address is a natural number, and the
addresses below `nextArray`, `nextRound`, `nextFinal` are the allocated ones. -/

/-- The method `CacheRound.Copy`, on values: the struct is copied and its
`Snapshots` are appended to an empty slice. -/
def CacheRound.Copy (c : CacheRound) : CacheRound :=
  let r := c
  { r with Snapshots := [] ++ c.Snapshots }

/-- The method `FinalRound.Copy`, on values. -/
def FinalRound.Copy (f : FinalRound) : FinalRound :=
  let r := f
  r

/-- A Go slice header: `len` elements, extensible up to `cap`, of the backing
array at the address `array`, from its index `offset` on. -/
structure Slice where
  array : Nat
  offset : Nat
  len : Nat
  cap : Nat
deriving DecidableEq, Repr

/-- A `CacheRound` struct in memory: its `Snapshots` field is a slice header. -/
structure RoundCell where
  NodeId : Hash
  Number : Nat
  Start : Nat
  References : Hash × Hash
  End : Nat
  Snapshots : Slice
deriving DecidableEq, Repr

/-- The memory: the elements of the backing arrays, the `CacheRound` structs
and the `FinalRound` structs, by address. -/
structure Heap where
  arrays : Nat → Nat → Snapshot
  nextArray : Nat
  rounds : Nat → Option RoundCell
  nextRound : Nat
  finals : Nat → Option FinalRound
  nextFinal : Nat

/-- The elements of a slice. -/
def Heap.readSlice (h : Heap) (s : Slice) : List Snapshot :=
  (List.range s.len).map fun i => h.arrays s.array (s.offset + i)

/-- The store of the elements `xs` into the array `a` from the index `i` on. -/
def Heap.writeList (h : Heap) (a : Nat) : Nat → List Snapshot → Heap
  | _, [] => h
  | i, x :: xs =>
    Heap.writeList
      { h with arrays := fun a' i' => if a' = a ∧ i' = i then x else h.arrays a' i' } a (i + 1) xs

/-- Go's builtin `append(s, xs...)`: while the capacity suffices the elements
are stored behind the slice, in its backing array; otherwise a new array
receives the elements of the slice and `xs`. The capacity of a new array is the
choice of the runtime, `capFor`, and at least the length. -/
def Heap.append (h : Heap) (capFor : Nat → Nat) (s : Slice) (xs : List Snapshot) :
    Heap × Slice :=
  if s.len + xs.length ≤ s.cap then
    (h.writeList s.array (s.offset + s.len) xs, { s with len := s.len + xs.length })
  else
    let all := h.readSlice s ++ xs
    (Heap.writeList { h with nextArray := h.nextArray + 1 } h.nextArray 0 all,
      { array := h.nextArray, offset := 0, len := all.length,
        cap := max all.length (capFor all.length) })

/-- The round a `*CacheRound` points to, as a value; `none` for a pointer that
points to no round. -/
def Heap.viewRound (h : Heap) (c : Nat) : Option CacheRound :=
  match h.rounds c with
  | none => none
  | some cell =>
    some
      { NodeId := cell.NodeId
        Number := cell.Number
        Start := cell.Start
        References := cell.References
        End := cell.End
        Snapshots := h.readSlice cell.Snapshots }

/-- The method `CacheRound.Copy` in memory, on the receiver `c`: the memory it
leaves and the pointer it returns; `none` is the panic on a receiver that
points to no round. The literal `[]*common.Snapshot{}` is an empty slice on an
array of its own; `r` escapes to a new struct. -/
def Heap.CopyRound (h : Heap) (capFor : Nat → Nat) (c : Nat) : Option (Heap × Nat) :=
  match h.rounds c with
  | none => none
  | some cell =>
    let r := cell
    let literal : Slice := { array := h.nextArray, offset := 0, len := 0, cap := 0 }
    let h1 := { h with nextArray := h.nextArray + 1 }
    let appended := h1.append capFor literal (h1.readSlice cell.Snapshots)
    let r := { r with Snapshots := appended.2 }
    let h2 := appended.1
    some
      ({ h2 with
          rounds := fun a => if a = h2.nextRound then some r else h2.rounds a
          nextRound := h2.nextRound + 1 },
        h2.nextRound)

/-- The method `FinalRound.Copy` in memory, on the receiver `f`. -/
def Heap.CopyFinal (h : Heap) (f : Nat) : Option (Heap × Nat) :=
  match h.finals f with
  | none => none
  | some v =>
    let r := v
    some
      ({ h with
          finals := fun a => if a = h.nextFinal then some r else h.finals a
          nextFinal := h.nextFinal + 1 },
        h.nextFinal)

/-- A statement that changes the round a pointer `r` points to: an assignment
to an element of `r.Snapshots`, an `append` to it, a reslice `r.Snapshots =
r.Snapshots[lo:hi]`, the removal `r.Snapshots = append(r.Snapshots[:i],
r.Snapshots[i+1:]...)` of an element, or an assignment to a scalar field. -/
inductive Mutation where
  | setSnapshot (i : Nat) (s : Snapshot)
  | appendSnapshot (s : Snapshot)
  | reslice (lo hi : Nat)
  | removeAt (i : Nat)
  | setNodeId (v : Hash)
  | setNumber (v : Nat)
  | setStart (v : Nat)
  | setReferences (v : Hash × Hash)
  | setEnd (v : Nat)
deriving DecidableEq, Repr

/-- The store of a struct at the address `r`. -/
def Heap.setRound (h : Heap) (r : Nat) (cell : RoundCell) : Heap :=
  { h with rounds := fun a => if a = r then some cell else h.rounds a }

/-- The effect of a statement on the round `r` points to; `none` is a panic
(a nil pointer, an index or a bound out of range). -/
def Heap.mutate (h : Heap) (capFor : Nat → Nat) (r : Nat) : Mutation → Option Heap
  | Mutation.setSnapshot i s =>
    match h.rounds r with
    | none => none
    | some cell =>
      if i < cell.Snapshots.len then
        some (h.writeList cell.Snapshots.array (cell.Snapshots.offset + i) [s])
      else none
  | Mutation.appendSnapshot s =>
    match h.rounds r with
    | none => none
    | some cell =>
      let appended := h.append capFor cell.Snapshots [s]
      some (appended.1.setRound r { cell with Snapshots := appended.2 })
  | Mutation.reslice lo hi =>
    match h.rounds r with
    | none => none
    | some cell =>
      if lo ≤ hi ∧ hi ≤ cell.Snapshots.cap then
        some (h.setRound r
          { cell with
            Snapshots :=
              { array := cell.Snapshots.array, offset := cell.Snapshots.offset + lo,
                len := hi - lo, cap := cell.Snapshots.cap - lo } })
      else none
  | Mutation.removeAt i =>
    match h.rounds r with
    | none => none
    | some cell =>
      if i < cell.Snapshots.len then
        let front : Slice := { cell.Snapshots with len := i }
        let back : Slice :=
          { array := cell.Snapshots.array, offset := cell.Snapshots.offset + (i + 1),
            len := cell.Snapshots.len - (i + 1), cap := cell.Snapshots.cap - (i + 1) }
        let appended := h.append capFor front (h.readSlice back)
        some (appended.1.setRound r { cell with Snapshots := appended.2 })
      else none
  | Mutation.setNodeId v => (h.rounds r).map fun cell => h.setRound r { cell with NodeId := v }
  | Mutation.setNumber v => (h.rounds r).map fun cell => h.setRound r { cell with Number := v }
  | Mutation.setStart v => (h.rounds r).map fun cell => h.setRound r { cell with Start := v }
  | Mutation.setReferences v =>
    (h.rounds r).map fun cell => h.setRound r { cell with References := v }
  | Mutation.setEnd v => (h.rounds r).map fun cell => h.setRound r { cell with End := v }

/-- The effect of a sequence of statements on the round `r` points to. -/
def Heap.mutateAll (h : Heap) (capFor : Nat → Nat) (r : Nat) : List Mutation → Option Heap
  | [] => some h
  | m :: ms =>
    match h.mutate capFor r m with
    | none => none
    | some h' => Heap.mutateAll h' capFor r ms

/-- The method `CacheRound.asFinal` in memory, on the receiver `c`: it reads the
struct and the elements of the slice and assigns to neither, so the memory it
leaves is the memory it is called in. -/
def Heap.asFinal (env : Env) (h : Heap) (c : Nat) : Option (Heap × Except Panic FinalRound) :=
  match h.viewRound c with
  | none => none
  | some v => some (h, v.asFinal env)

/-- An assignment `*r = v` to the final round a pointer `r` points to, which
covers the assignments to its fields; `none` is the panic on a pointer that
points to no round. -/
def Heap.setFinal (h : Heap) (r : Nat) (v : FinalRound) : Option Heap :=
  match h.finals r with
  | none => none
  | some _ => some { h with finals := fun a => if a = r then some v else h.finals a }

/-- The effect of a sequence of assignments to the final round `r` points to. -/
def Heap.setFinals (h : Heap) (r : Nat) : List FinalRound → Option Heap
  | [] => some h
  | v :: vs =>
    match h.setFinal r v with
    | none => none
    | some h' => Heap.setFinals h' r vs

/-- The round at `c` is out of reach of the statements on the round at `r`: the
two pointers differ, the struct at `c` is `cell`, its backing array holds the
elements `orig` and is allocated, and the slice of the round at `r` has another
backing array. -/
def Heap.Separate (h : Heap) (c r : Nat) (cell : RoundCell) (orig : Nat → Snapshot) : Prop :=
  h.rounds c = some cell ∧ (∀ i, h.arrays cell.Snapshots.array i = orig i) ∧ r ≠ c ∧
    cell.Snapshots.array < h.nextArray ∧
    ∀ rc, h.rounds r = some rc → rc.Snapshots.array ≠ cell.Snapshots.array

/-- A memory with one open round, at the address 0, whose slice has three
elements and room for a fourth, and one final round, at the address 0. -/
def sampleHeap : Heap where
  arrays := fun a i => if a = 0 then sampleSnapshot (i + 1) i else sampleSnapshot 0 0
  nextArray := 1
  rounds := fun a =>
    if a = 0 then
      some { NodeId := hashA, Number := 7, Start := 1, References := (hashA, hashP), End := 3,
             Snapshots := { array := 0, offset := 0, len := 3, cap := 4 } }
    else none
  nextRound := 1
  finals := fun a =>
    if a = 0 then some { NodeId := hashA, Number := 6, Start := 1, End := 3, Hash := hashP }
    else none
  nextFinal := 1

/-! # Theorems -/

/-! ## Theorems: `validateNodePledge` -/

theorem Integer.Cmp_eq_zero_iff (x y : Integer) : Integer.Cmp x y = 0 ↔ x = y := by
  unfold Integer.Cmp
  by_cases h1 : x < y
  · rw [if_pos h1]
    constructor
    · intro h; exact absurd h (by decide)
    · intro h; subst h; exact absurd h1 (Nat.lt_irrefl _)
  · rw [if_neg h1]
    by_cases h2 : x = y
    · rw [if_pos h2]; exact ⟨fun _ => h2, fun _ => rfl⟩
    · rw [if_neg h2]
      constructor
      · intro h; exact absurd h (by decide)
      · intro h; exact absurd h h2

theorem pledgeInputsLoop_eq_none_iff (env : Env) (inputs : List (String × UTXO)) :
    pledgeInputsLoop env inputs = none ↔
      ∀ kv ∈ inputs, kv.2.output.Typ = env.OutputTypeScript := by
  induction inputs with
  | nil => simp [pledgeInputsLoop]
  | cons kv rest ih =>
    by_cases h : kv.2.output.Typ = env.OutputTypeScript
    · simp [pledgeInputsLoop, h, ih]
    · simp [pledgeInputsLoop, h]

theorem pledgeNodesLoop_eq_none_iff (env : Env) (nodes : List Node) :
    pledgeNodesLoop env nodes = none ↔ ∀ n ∈ nodes, n.State = NodeStateAccepted := by
  induction nodes with
  | nil => simp [pledgeNodesLoop]
  | cons n rest ih =>
    by_cases h : n.State = NodeStateAccepted
    · simp [pledgeNodesLoop, h, ih]
    · simp [pledgeNodesLoop, h]

/-- C1: `validateNodePledge` returns `nil` exactly when the transaction has one
output, its `Extra` is 64 bytes long (twice the key size), every input UTXO has
the script output type, the amount of the sole output is 10000 and every
validator of the table is `ACCEPTED`. -/
theorem validateNodePledge_nil_iff (env : Env) (tx : Transaction) (store : DataStore)
    (inputs : List (String × UTXO)) :
    validateNodePledge env tx store inputs = Outcome.nil ↔
      ((∃ o, tx.Outputs = [o] ∧ o.Amount = NewInteger 10000) ∧
        tx.Extra.length = 64 ∧
        (∀ kv ∈ inputs, kv.2.output.Typ = env.OutputTypeScript) ∧
        ∀ n ∈ store.ReadConsensusNodes, n.State = NodeStateAccepted) := by
  rw [← pledgeInputsLoop_eq_none_iff env inputs,
    ← pledgeNodesLoop_eq_none_iff env store.ReadConsensusNodes]
  unfold validateNodePledge
  rcases hO : tx.Outputs with _ | ⟨o, _ | ⟨o2, rest⟩⟩
  · simp
  · by_cases hE : tx.Extra.length = 64
    · cases hI : pledgeInputsLoop env inputs with
      | some e => simp [KeySize, hE]
      | none =>
        by_cases hA : o.Amount = NewInteger 10000
        · cases hN : pledgeNodesLoop env store.ReadConsensusNodes with
          | some e => simp [KeySize, hE, hA, Integer.Cmp_eq_zero_iff]
          | none => simp [KeySize, hE, hA, Integer.Cmp_eq_zero_iff]
        · simp [KeySize, hE, hA, Integer.Cmp_eq_zero_iff]
    · simp [KeySize, hE]
  · simp

/-! ## Theorems: the membership loop of `validateNodeAccept` -/

theorem accepted_ne_pledging : NodeStateAccepted ≠ NodeStatePledging := by decide
theorem accepted_ne_departing : NodeStateAccepted ≠ NodeStateDeparting := by decide
theorem pledging_ne_departing : NodeStatePledging ≠ NodeStateDeparting := by decide

theorem pledgingCount_cons (n : Node) (rest : List Node) :
    pledgingCount (n :: rest) =
      pledgingCount rest + if n.State = NodeStatePledging then 1 else 0 := by
  simp [pledgingCount, List.countP_cons]

theorem acceptNodesLoop_departing (env : Env) (n : Node) (rest : List Node)
    (p0 : Option Node) (f0 : StateMap) (hs : n.State = NodeStateDeparting) :
    acceptNodesLoop env (n :: rest) p0 f0 =
      Membership.error (Error.nodePendingState (env.AddressString n.Signer) n.State) := by
  simp only [acceptNodesLoop]
  rw [if_pos hs]

theorem acceptNodesLoop_accepted (env : Env) (n : Node) (rest : List Node)
    (p0 : Option Node) (f0 : StateMap) (hs : n.State = NodeStateAccepted) :
    acceptNodesLoop env (n :: rest) p0 f0 =
      acceptNodesLoop env rest p0 (f0.set (env.AddressString n.Signer) n.State) := by
  have hd : n.State ≠ NodeStateDeparting := hs ▸ accepted_ne_departing
  simp only [acceptNodesLoop]
  rw [if_neg hd, if_pos hs]

theorem acceptNodesLoop_pledging_first (env : Env) (n : Node) (rest : List Node)
    (f0 : StateMap) (hs : n.State = NodeStatePledging) :
    acceptNodesLoop env (n :: rest) none f0 =
      acceptNodesLoop env rest (some n) (f0.set (env.AddressString n.Signer) n.State) := by
  have hd : n.State ≠ NodeStateDeparting := hs ▸ pledging_ne_departing
  have ha : n.State ≠ NodeStateAccepted := hs ▸ accepted_ne_pledging.symm
  simp only [acceptNodesLoop]
  rw [if_neg hd, if_neg ha, if_pos ⟨hs, rfl⟩]

theorem acceptNodesLoop_pledging_second (env : Env) (n q : Node) (rest : List Node)
    (f0 : StateMap) (hs : n.State = NodeStatePledging) :
    acceptNodesLoop env (n :: rest) (some q) f0 =
      Membership.error
        (Error.pledgingNodes (env.AddressString q.Signer) (env.AddressString n.Signer)) := by
  have hd : n.State ≠ NodeStateDeparting := hs ▸ pledging_ne_departing
  have ha : n.State ≠ NodeStateAccepted := hs ▸ accepted_ne_pledging.symm
  simp only [acceptNodesLoop]
  rw [if_neg hd, if_neg ha, if_neg (by simp)]

/-- The membership loop on a table with the three known states: it ends with an
error exactly if a validator is `DEPARTING` or two are `PLEDGING` (one already
held in `pledging` counts), and it never panics. -/
theorem acceptNodesLoop_three (env : Env) (nodes : List Node)
    (h3 : ∀ n ∈ nodes, n.State = NodeStatePledging ∨ n.State = NodeStateAccepted ∨
      n.State = NodeStateDeparting) (p0 : Option Node) (f0 : StateMap) :
    ((∃ p f, acceptNodesLoop env nodes p0 f0 = Membership.done p f ∧
        (p.isSome = true ↔ p0.isSome = true ∨ 0 < pledgingCount nodes)) ∧
      (∀ n ∈ nodes, n.State ≠ NodeStateDeparting) ∧
      pledgingCount nodes + (if p0.isSome then 1 else 0) ≤ 1) ∨
    ((∃ e, acceptNodesLoop env nodes p0 f0 = Membership.error e) ∧
      ((∃ n ∈ nodes, n.State = NodeStateDeparting) ∨
        2 ≤ pledgingCount nodes + (if p0.isSome then 1 else 0))) := by
  induction nodes generalizing p0 f0 with
  | nil =>
    left
    refine ⟨⟨p0, f0, rfl, ?_⟩, ?_, ?_⟩
    · simp [pledgingCount]
    · simp
    · simp [pledgingCount]; split <;> simp
  | cons n rest ih =>
    have h3r : ∀ m ∈ rest, m.State = NodeStatePledging ∨ m.State = NodeStateAccepted ∨
        m.State = NodeStateDeparting := fun m hm => h3 m (List.mem_cons_of_mem _ hm)
    rcases h3 n (List.mem_cons_self _ _) with hs | hs | hs
    · -- PLEDGING
      have hd : n.State ≠ NodeStateDeparting := hs ▸ pledging_ne_departing
      have ha : n.State ≠ NodeStateAccepted := hs ▸ accepted_ne_pledging.symm
      cases p0 with
      | none =>
        rw [acceptNodesLoop_pledging_first env n rest f0 hs, pledgingCount_cons]
        rcases ih h3r (some n) (f0.set (env.AddressString n.Signer) n.State) with
          ⟨⟨p, f, hl, hp⟩, hnd, hc⟩ | ⟨he, hor⟩
        · left
          refine ⟨⟨p, f, hl, ?_⟩, ?_, ?_⟩
          · simp [hs] at hp ⊢; exact hp
          · intro m hm
            rcases List.mem_cons.1 hm with rfl | hm
            · exact hd
            · exact hnd m hm
          · simp [hs] at hc ⊢; omega
        · right
          refine ⟨he, ?_⟩
          rcases hor with ⟨m, hm, hmd⟩ | hc
          · exact Or.inl ⟨m, List.mem_cons_of_mem _ hm, hmd⟩
          · right; simp [hs] at hc ⊢; omega
      | some q =>
        right
        refine ⟨⟨_, acceptNodesLoop_pledging_second env n q rest f0 hs⟩, Or.inr ?_⟩
        rw [pledgingCount_cons]; simp [hs]
    · -- ACCEPTED
      have hd : n.State ≠ NodeStateDeparting := hs ▸ accepted_ne_departing
      have hp' : n.State ≠ NodeStatePledging := hs ▸ accepted_ne_pledging
      rw [acceptNodesLoop_accepted env n rest p0 f0 hs, pledgingCount_cons]
      simp only [hp', if_false, Nat.add_zero]
      rcases ih h3r p0 (f0.set (env.AddressString n.Signer) n.State) with
        ⟨hl, hnd, hc⟩ | ⟨he, hor⟩
      · left
        refine ⟨hl, ?_, hc⟩
        intro m hm
        rcases List.mem_cons.1 hm with rfl | hm
        · exact hd
        · exact hnd m hm
      · right
        refine ⟨he, ?_⟩
        rcases hor with ⟨m, hm, hmd⟩ | hc
        · exact Or.inl ⟨m, List.mem_cons_of_mem _ hm, hmd⟩
        · exact Or.inr hc
    · -- DEPARTING
      right
      exact ⟨⟨_, acceptNodesLoop_departing env n rest p0 f0 hs⟩,
        Or.inl ⟨n, List.mem_cons_self _ _, hs⟩⟩


theorem validateNodeAccept_of_sources (env : Env) (tx : Transaction) (store : DataStore)
    (p : Node) (filter : StateMap) (lastAccept lastPledge : Transaction) (ao po : Output)
    (h : AcceptSources env tx store p filter lastAccept lastPledge ao po) :
    validateNodeAccept env tx store =
      if ao.Amount + po.Amount = 10000 * store.ReadConsensusNodes.length then Outcome.nil
      else Outcome.error (Error.acceptInputAmount ao.Amount po.Amount
        (NewInteger (10000 * store.ReadConsensusNodes.length))) := by
  obtain ⟨hO, ⟨in0, in1, hI, hRA, hRP⟩, hL, hAo, hAt, hAs, hPo, hPt, hPs⟩ := h
  unfold validateNodeAccept
  simp [hO, hI, hL, hRA, hRP, hAo, hAt, hAs, hPo, hPt, hPs, Integer.Cmp_eq_zero_iff,
    Integer.Add, NewInteger]

theorem validateNodeAccept_nil_sources (env : Env) (tx : Transaction) (store : DataStore)
    (h : validateNodeAccept env tx store = Outcome.nil) :
    ∃ p filter lastAccept lastPledge ao po,
      AcceptSources env tx store p filter lastAccept lastPledge ao po ∧
      ao.Amount + po.Amount = 10000 * store.ReadConsensusNodes.length := by
  unfold validateNodeAccept at h
  by_cases hO : tx.Outputs.length = 1
  swap
  · simp [hO] at h
  rcases hI : tx.Inputs with _ | ⟨in0, _ | ⟨in1, _ | ⟨in2, more⟩⟩⟩
  · simp [hO, hI] at h
  · simp [hO, hI] at h
  swap
  · simp [hO, hI] at h
  simp only [hO, hI, ne_eq, not_true_eq_false, if_false, List.length_cons, List.length_nil,
    List.getElem?_cons_zero, List.getElem?_cons_succ] at h
  cases hL : acceptNodesLoop env store.ReadConsensusNodes none StateMap.empty with
  | error e => simp [hL] at h
  | panic q => simp [hL] at h
  | done p filter =>
    cases p with
    | none => simp [hL] at h
    | some p =>
      simp only [hL] at h
      rcases hRA : store.ReadTransaction in0.Hash with ⟨_ | lastAccept, _ | e⟩
      · simp [hRA] at h
      · simp [hRA] at h
      swap
      · simp [hRA] at h
      simp only [hRA] at h
      rcases hAo : lastAccept.Outputs with _ | ⟨ao, _ | ⟨ao2, aos⟩⟩
      · simp [hAo] at h
      swap
      · simp [hAo] at h
      simp only [hAo, List.getElem?_cons_zero, List.length_cons, List.length_nil, ne_eq,
        not_true_eq_false, if_false] at h
      by_cases hAt : ao.Typ = env.OutputTypeNodeAccept
      swap
      · simp [hAt] at h
      by_cases hAs : filter (env.AddressString (deriveAddress env
          (copyBytes zeroKey lastAccept.Extra))) = NodeStateAccepted
      swap
      · simp [hAt, hAs] at h
      simp only [hAt, hAs, ne_eq, not_true_eq_false, if_false] at h
      rcases hRP : store.ReadTransaction in1.Hash with ⟨_ | lastPledge, _ | e⟩
      · simp [hRP] at h
      · simp [hRP] at h
      swap
      · simp [hRP] at h
      simp only [hRP] at h
      rcases hPo : lastPledge.Outputs with _ | ⟨po, _ | ⟨po2, pos⟩⟩
      · simp [hPo] at h
      swap
      · simp [hPo] at h
      simp only [hPo, List.getElem?_cons_zero, List.length_cons, List.length_nil, ne_eq,
        not_true_eq_false, if_false] at h
      by_cases hPt : po.Typ = env.OutputTypeNodePledge
      swap
      · simp [hPt] at h
      by_cases hPs : filter (env.AddressString (deriveAddress env
          (copyBytes (copyBytes zeroKey lastAccept.Extra) lastPledge.Extra))) =
            NodeStatePledging
      swap
      · simp [hPt, hPs] at h
      simp only [hPt, hPs, ne_eq, not_true_eq_false, if_false] at h
      by_cases hSum : ao.Amount + po.Amount = 10000 * store.ReadConsensusNodes.length
      swap
      · simp [Integer.Cmp_eq_zero_iff, Integer.Add, NewInteger, hSum] at h
      exact ⟨p, filter, lastAccept, lastPledge, ao, po,
        ⟨hO, ⟨in0, in1, hI, hRA, hRP⟩, hL, hAo, hAt, hAs, hPo, hPt, hPs⟩, hSum⟩

/-! ## Theorems: `validateNodeAccept` -/

/-- C2 (as stated, refuted): the accept transaction `acceptTx 19999` spends two
bond outputs of 10000 each into one output of 19999, one unit less than their
sum, and `validateNodeAccept` returns `nil`. -/
theorem validateNodeAccept_output_amount_unchecked :
    validateNodeAccept sampleEnv (acceptTx 19999) sampleStore = Outcome.nil ∧
      (acceptTx 19999).Outputs.map Output.Amount = [19999] ∧
      (sampleStore.ReadTransaction hashA).1.map (fun t => t.Outputs.map Output.Amount) =
        some [10000] ∧
      (sampleStore.ReadTransaction hashP).1.map (fun t => t.Outputs.map Output.Amount) =
        some [10000] := by
  decide

/-- C2 (amended): `validateNodeAccept` reads of the outputs of `tx` only their
number: two transactions with the same inputs and as many outputs get the same
result, whatever the amounts of their outputs. -/
theorem validateNodeAccept_output_amount_irrelevant (env : Env) (tx tx' : Transaction)
    (store : DataStore) (hI : tx'.Inputs = tx.Inputs)
    (hO : tx'.Outputs.length = tx.Outputs.length) :
    validateNodeAccept env tx' store = validateNodeAccept env tx store := by
  unfold validateNodeAccept
  rw [hI, hO]

theorem validateNodeAccept_output_amount_irrelevant_witness :
    validateNodeAccept sampleEnv (acceptTx 0) sampleStore =
      validateNodeAccept sampleEnv (acceptTx 20000) sampleStore ∧
    validateNodeAccept sampleEnv (acceptTx 20000) sampleStore = Outcome.nil :=
  ⟨validateNodeAccept_output_amount_irrelevant sampleEnv (acceptTx 20000) (acceptTx 0)
    sampleStore rfl rfl, by decide⟩

/-- C3: when `validateNodeAccept` returns `nil`, every check before the amounts
has passed and the amounts of the accept-source output `ao` and of the
pledge-source output `po` add up to 10000 times the number of validators of the
table; and when every check before the amounts passes and the sum is another
number, `validateNodeAccept` returns the amount-mismatch error. -/
theorem validateNodeAccept_amounts (env : Env) (tx : Transaction) (store : DataStore) :
    (validateNodeAccept env tx store = Outcome.nil →
      ∃ p filter lastAccept lastPledge ao po,
        AcceptSources env tx store p filter lastAccept lastPledge ao po ∧
        ao.Amount + po.Amount = 10000 * store.ReadConsensusNodes.length) ∧
    (∀ p filter lastAccept lastPledge ao po,
      AcceptSources env tx store p filter lastAccept lastPledge ao po →
      ao.Amount + po.Amount ≠ 10000 * store.ReadConsensusNodes.length →
      validateNodeAccept env tx store =
        Outcome.error (Error.acceptInputAmount ao.Amount po.Amount
          (NewInteger (10000 * store.ReadConsensusNodes.length)))) := by
  refine ⟨validateNodeAccept_nil_sources env tx store, ?_⟩
  intro p filter lastAccept lastPledge ao po h hne
  rw [validateNodeAccept_of_sources env tx store p filter lastAccept lastPledge ao po h,
    if_neg hne]

theorem validateNodeAccept_amounts_witness :
    (∃ p filter lastAccept lastPledge ao po,
      AcceptSources sampleEnv (acceptTx 20000) sampleStore p filter lastAccept lastPledge
        ao po ∧
      ao.Amount + po.Amount = 10000 * sampleStore.ReadConsensusNodes.length) ∧
    validateNodeAccept sampleEnv (acceptTx 20000)
        (storeWith [nodeA, nodeP] (some txA, none)
          (some (sourceTx 163 10001 (keyP ++ keyP)), none)) =
      Outcome.error (Error.acceptInputAmount 10000 10001 20000) ∧
    validateNodeAccept sampleEnv (acceptTx 20000)
        (storeWith [nodeA, nodeP] (some txA, none)
          (some (sourceTx 163 9999 (keyP ++ keyP)), none)) =
      Outcome.error (Error.acceptInputAmount 10000 9999 20000) :=
  ⟨(validateNodeAccept_amounts sampleEnv (acceptTx 20000) sampleStore).1 (by decide),
    (validateNodeAccept_amounts sampleEnv (acceptTx 20000)
      (storeWith [nodeA, nodeP] (some txA, none)
        (some (sourceTx 163 10001 (keyP ++ keyP)), none))).2
      nodeP _ txA (sourceTx 163 10001 (keyP ++ keyP)) ⟨164, 10000⟩ ⟨163, 10001⟩
      ⟨rfl, ⟨⟨hashA, 0⟩, ⟨hashP, 0⟩, rfl, rfl, rfl⟩, rfl, rfl, rfl, by decide, rfl, rfl,
        by decide⟩
      (by decide),
    (validateNodeAccept_amounts sampleEnv (acceptTx 20000)
      (storeWith [nodeA, nodeP] (some txA, none)
        (some (sourceTx 163 9999 (keyP ++ keyP)), none))).2
      nodeP _ txA (sourceTx 163 9999 (keyP ++ keyP)) ⟨164, 10000⟩ ⟨163, 9999⟩
      ⟨rfl, ⟨⟨hashA, 0⟩, ⟨hashP, 0⟩, rfl, rfl, rfl⟩, rfl, rfl, rfl, by decide, rfl, rfl,
        by decide⟩
      (by decide)⟩

/-- C4: on a table whose states are `PLEDGING`, `ACCEPTED` or `DEPARTING`,
`validateNodeAccept` returns an error whenever a validator is `DEPARTING`, none
is `PLEDGING` or two or more are `PLEDGING`; and the membership loop ends with a
pledging node recorded, so that the checks of the inputs are reached, exactly
when one validator is `PLEDGING` and none is `DEPARTING`. -/
theorem validateNodeAccept_membership (env : Env) (tx : Transaction) (store : DataStore)
    (h3 : ∀ n ∈ store.ReadConsensusNodes, n.State = NodeStatePledging ∨
      n.State = NodeStateAccepted ∨ n.State = NodeStateDeparting) :
    (((∃ n ∈ store.ReadConsensusNodes, n.State = NodeStateDeparting) ∨
        pledgingCount store.ReadConsensusNodes = 0 ∨
        2 ≤ pledgingCount store.ReadConsensusNodes) →
      ∃ e, validateNodeAccept env tx store = Outcome.error e) ∧
    ((∃ p f, acceptNodesLoop env store.ReadConsensusNodes none StateMap.empty =
        Membership.done (some p) f) ↔
      (pledgingCount store.ReadConsensusNodes = 1 ∧
        ∀ n ∈ store.ReadConsensusNodes, n.State ≠ NodeStateDeparting)) := by
  have key := acceptNodesLoop_three env store.ReadConsensusNodes h3 none StateMap.empty
  simp only [Option.isSome_none, Bool.false_eq_true, if_false, Nat.add_zero, false_or] at key
  constructor
  · intro hbad
    unfold validateNodeAccept
    by_cases hO : tx.Outputs.length = 1
    swap
    · exact ⟨_, by rw [if_pos hO]⟩
    by_cases hI : tx.Inputs.length = 2
    swap
    · exact ⟨_, by rw [if_neg (not_not.2 hO), if_pos hI]⟩
    rw [if_neg (not_not.2 hO), if_neg (not_not.2 hI)]
    rcases key with ⟨⟨p, f, hl, hp⟩, hnd, hc⟩ | ⟨⟨e, hl⟩, _⟩
    · have h0 : pledgingCount store.ReadConsensusNodes = 0 := by
        rcases hbad with ⟨n, hn, hdep⟩ | h0 | h2
        · exact absurd hdep (hnd n hn)
        · exact h0
        · omega
      cases p with
      | none => exact ⟨Error.noPledgingNode, by simp only [hl]⟩
      | some q =>
        have := hp.1 rfl
        omega
    · exact ⟨e, by simp only [hl]⟩
  · constructor
    · rintro ⟨p, f, hl⟩
      rcases key with ⟨⟨p', f', hl', hp⟩, hnd, hc⟩ | ⟨⟨e, hl'⟩, _⟩
      · rw [hl] at hl'
        injection hl' with hpp _
        subst hpp
        have := hp.1 rfl
        exact ⟨by omega, hnd⟩
      · rw [hl] at hl'; exact absurd hl' (by simp)
    · rintro ⟨h1, hnd⟩
      rcases key with ⟨⟨p', f', hl', hp⟩, _, _⟩ | ⟨_, ⟨n, hn, hdep⟩ | h2⟩
      · cases p' with
        | none =>
          have := hp.2 (by omega)
          exact absurd this (by simp)
        | some q => exact ⟨q, f', hl'⟩
      · exact absurd hdep (hnd n hn)
      · omega

theorem validateNodeAccept_membership_witness :
    (∃ e, validateNodeAccept sampleEnv (acceptTx 20000)
        (storeWith [nodeA, sampleNode keyP NodeStateDeparting] (some txA, none)
          (some txP, none)) = Outcome.error e) ∧
    (∃ e, validateNodeAccept sampleEnv (acceptTx 20000)
        (storeWith [nodeA, nodeA] (some txA, none) (some txP, none)) = Outcome.error e) ∧
    (∃ e, validateNodeAccept sampleEnv (acceptTx 20000)
        (storeWith [nodeP, nodeA, nodeP] (some txA, none) (some txP, none)) =
          Outcome.error e) ∧
    ∃ p f, acceptNodesLoop sampleEnv sampleStore.ReadConsensusNodes none StateMap.empty =
      Membership.done (some p) f :=
  ⟨(validateNodeAccept_membership sampleEnv (acceptTx 20000)
      (storeWith [nodeA, sampleNode keyP NodeStateDeparting] (some txA, none)
        (some txP, none)) (by decide)).1 (Or.inl (by decide)),
    (validateNodeAccept_membership sampleEnv (acceptTx 20000)
      (storeWith [nodeA, nodeA] (some txA, none) (some txP, none)) (by decide)).1
      (Or.inr (Or.inl (by decide))),
    (validateNodeAccept_membership sampleEnv (acceptTx 20000)
      (storeWith [nodeP, nodeA, nodeP] (some txA, none) (some txP, none)) (by decide)).1
      (Or.inr (Or.inr (by decide))),
    (validateNodeAccept_membership sampleEnv (acceptTx 20000) sampleStore (by decide)).2.2
      ⟨by decide, by decide⟩⟩

/-! ## Theorems: provenance of the two inputs -/

theorem accepted_ne_empty (k : String) : NodeStateAccepted ≠ StateMap.empty k := by
  unfold StateMap.empty; decide

theorem pledging_ne_empty (k : String) : NodeStatePledging ≠ StateMap.empty k := by
  unfold StateMap.empty; decide

theorem copyBytes_length (dst src : List Nat) : (copyBytes dst src).length = dst.length := by
  simp only [copyBytes, List.length_append, List.length_take, List.length_drop]
  omega

theorem copyBytes_of_le (dst src : List Nat) (h : dst.length ≤ src.length) :
    copyBytes dst src = src.take dst.length := by
  simp [copyBytes, List.drop_eq_nil_of_le h]

/-- A `copy` that fills the whole key forgets what the key held before. -/
theorem copyBytes_copyBytes_of_le (dst a b : List Nat) (h : dst.length ≤ b.length) :
    copyBytes (copyBytes dst a) b = copyBytes dst b := by
  rw [copyBytes_of_le _ _ (by rw [copyBytes_length]; exact h), copyBytes_length,
    copyBytes_of_le _ _ h]

theorem acceptNodesLoop_done_cons (env : Env) (n : Node) (rest : List Node)
    (p0 p : Option Node) (f0 f : StateMap)
    (h : acceptNodesLoop env (n :: rest) p0 f0 = Membership.done p f) :
    (n.State = NodeStateAccepted ∧
      acceptNodesLoop env rest p0 (f0.set (env.AddressString n.Signer) n.State) =
        Membership.done p f) ∨
    (n.State = NodeStatePledging ∧ p0 = none ∧
      acceptNodesLoop env rest (some n) (f0.set (env.AddressString n.Signer) n.State) =
        Membership.done p f) := by
  simp only [acceptNodesLoop] at h
  by_cases hd : n.State = NodeStateDeparting
  · rw [if_pos hd] at h; exact absurd h (by simp)
  rw [if_neg hd] at h
  by_cases ha : n.State = NodeStateAccepted
  · rw [if_pos ha] at h; exact Or.inl ⟨ha, h⟩
  rw [if_neg ha] at h
  by_cases hp : n.State = NodeStatePledging ∧ p0.isNone = true
  · rw [if_pos hp] at h
    exact Or.inr ⟨hp.1, Option.isNone_iff_eq_none.1 hp.2, h⟩
  · rw [if_neg hp] at h
    cases p0 <;> exact absurd h (by simp)

/-- What the map `filter` holds after the membership loop: a key whose value was
changed is the signer of a validator of the table in the state the map gives. -/
theorem acceptNodesLoop_filter (env : Env) (nodes : List Node) (p0 p : Option Node)
    (f0 f : StateMap) (h : acceptNodesLoop env nodes p0 f0 = Membership.done p f)
    (k : String) (hk : f k ≠ f0 k) :
    ∃ n ∈ nodes, env.AddressString n.Signer = k ∧ n.State = f k := by
  induction nodes generalizing p0 f0 with
  | nil =>
    simp only [acceptNodesLoop] at h
    injection h with _ hf
    exact absurd (congrFun hf k).symm hk
  | cons n rest ih =>
    have step : ∃ p1, acceptNodesLoop env rest p1
        (f0.set (env.AddressString n.Signer) n.State) = Membership.done p f := by
      rcases acceptNodesLoop_done_cons env n rest p0 p f0 f h with ⟨_, h'⟩ | ⟨_, _, h'⟩
      · exact ⟨_, h'⟩
      · exact ⟨_, h'⟩
    obtain ⟨p1, h1⟩ := step
    by_cases hk1 : f k = (f0.set (env.AddressString n.Signer) n.State) k
    · by_cases hkn : k = env.AddressString n.Signer
      · refine ⟨n, List.mem_cons_self _ _, hkn.symm, ?_⟩
        rw [hk1]; simp [StateMap.set, hkn]
      · exfalso
        apply hk
        rw [hk1]; simp [StateMap.set, hkn]
    · obtain ⟨m, hm, hms⟩ := ih p1 _ h1 hk1
      exact ⟨m, List.mem_cons_of_mem _ hm, hms⟩

/-- The node the membership loop records is the one `PLEDGING` validator of the
table; every other validator is `ACCEPTED`. -/
theorem acceptNodesLoop_pledging (env : Env) (nodes : List Node) (p0 p : Option Node)
    (f0 f : StateMap) (h : acceptNodesLoop env nodes p0 f0 = Membership.done p f) :
    (∀ q, p0 = some q → p = some q ∧ ∀ m ∈ nodes, m.State = NodeStateAccepted) ∧
    (p0 = none → ∀ n, p = some n →
      n ∈ nodes ∧ n.State = NodeStatePledging ∧
        ∀ m ∈ nodes, m.State = NodeStatePledging → m = n) := by
  induction nodes generalizing p0 f0 with
  | nil =>
    simp only [acceptNodesLoop] at h
    injection h with hp _
    subst hp
    refine ⟨fun q hq => ⟨hq, by simp⟩, fun h0 n hn => ?_⟩
    rw [h0] at hn; exact absurd hn (by simp)
  | cons x rest ih =>
    rcases acceptNodesLoop_done_cons env x rest p0 p f0 f h with ⟨ha, h'⟩ | ⟨hp, h0, h'⟩
    · have hxp : x.State ≠ NodeStatePledging := ha ▸ accepted_ne_pledging
      obtain ⟨ih1, ih2⟩ := ih p0 _ h'
      constructor
      · intro q hq
        obtain ⟨e1, e2⟩ := ih1 q hq
        refine ⟨e1, fun m hm => ?_⟩
        rcases List.mem_cons.1 hm with rfl | hm
        · exact ha
        · exact e2 m hm
      · intro hnone n hn
        obtain ⟨e1, e2, e3⟩ := ih2 hnone n hn
        refine ⟨List.mem_cons_of_mem _ e1, e2, fun m hm hms => ?_⟩
        rcases List.mem_cons.1 hm with rfl | hm
        · exact absurd hms hxp
        · exact e3 m hm hms
    · obtain ⟨ih1, _⟩ := ih (some x) _ h'
      obtain ⟨e1, e2⟩ := ih1 x rfl
      constructor
      · intro q hq; rw [h0] at hq; exact absurd hq (by simp)
      · intro _ n hn
        rw [e1] at hn
        injection hn with hn
        subst hn
        refine ⟨List.mem_cons_self _ _, hp, fun m hm hms => ?_⟩
        rcases List.mem_cons.1 hm with rfl | hm
        · rfl
        · exact absurd hms ((e2 m hm) ▸ accepted_ne_pledging)

/-- C5: when `validateNodeAccept` returns `nil`, the transaction of the first
input has one output, of the accept type, and the address derived from the
spend key its `Extra` commits (the view key is the public half of
`DeterministicHashDerive` of the spend key) is the signer of an `ACCEPTED`
validator; the transaction of the second input has one output, of the pledge
type, and the address derived the same way from the spend key its `Extra`
commits, the `Extra` holding a whole key, is the signer of the one `PLEDGING`
validator. Two addresses are the same when `String` gives the same for both, as
in the map `filter`. -/
theorem validateNodeAccept_provenance (env : Env) (tx : Transaction) (store : DataStore)
    (h : validateNodeAccept env tx store = Outcome.nil) :
    ∃ p filter lastAccept lastPledge ao po,
      AcceptSources env tx store p filter lastAccept lastPledge ao po ∧
      (∃ n ∈ store.ReadConsensusNodes, n.State = NodeStateAccepted ∧
        env.AddressString n.Signer =
          env.AddressString (deriveAddress env (copyBytes zeroKey lastAccept.Extra))) ∧
      p ∈ store.ReadConsensusNodes ∧ p.State = NodeStatePledging ∧
      (∀ m ∈ store.ReadConsensusNodes, m.State = NodeStatePledging → m = p) ∧
      (KeySize ≤ lastPledge.Extra.length →
        env.AddressString p.Signer =
          env.AddressString (deriveAddress env (copyBytes zeroKey lastPledge.Extra))) := by
  obtain ⟨p, filter, lastAccept, lastPledge, ao, po, hS, _⟩ :=
    validateNodeAccept_nil_sources env tx store h
  have hS' := hS
  obtain ⟨_, _, hL, _, _, hAs, _, _, hPs⟩ := hS'
  obtain ⟨_, hp⟩ := acceptNodesLoop_pledging env _ none (some p) _ filter hL
  obtain ⟨hpm, hpp, hpu⟩ := hp rfl p rfl
  refine ⟨p, filter, lastAccept, lastPledge, ao, po, hS, ?_, hpm, hpp, hpu, ?_⟩
  · obtain ⟨n, hn, hns, hnst⟩ := acceptNodesLoop_filter env _ none (some p) _ filter hL
      (env.AddressString (deriveAddress env (copyBytes zeroKey lastAccept.Extra)))
      (by rw [hAs]; exact accepted_ne_empty _)
    exact ⟨n, hn, hnst.trans hAs, hns⟩
  · intro hlen
    obtain ⟨n, hn, hns, hnst⟩ := acceptNodesLoop_filter env _ none (some p) _ filter hL
      (env.AddressString (deriveAddress env
        (copyBytes (copyBytes zeroKey lastAccept.Extra) lastPledge.Extra)))
      (by rw [hPs]; exact pledging_ne_empty _)
    have hnp : n = p := hpu n hn (hnst.trans hPs)
    rw [← hnp, hns, copyBytes_copyBytes_of_le zeroKey _ _ (by simpa [zeroKey] using hlen)]

theorem validateNodeAccept_provenance_witness :
    validateNodeAccept sampleEnv (acceptTx 20000) sampleStore = Outcome.nil ∧
    sampleStore.ReadTransaction hashP = (some txP, none) ∧ KeySize ≤ txP.Extra.length ∧
    sampleEnv.AddressString nodeP.Signer =
      sampleEnv.AddressString (deriveAddress sampleEnv (copyBytes zeroKey txP.Extra)) ∧
    ∃ p filter lastAccept lastPledge ao po,
      AcceptSources sampleEnv (acceptTx 20000) sampleStore p filter lastAccept lastPledge ao po ∧
      (∃ n ∈ sampleStore.ReadConsensusNodes, n.State = NodeStateAccepted ∧
        sampleEnv.AddressString n.Signer =
          sampleEnv.AddressString
            (deriveAddress sampleEnv (copyBytes zeroKey lastAccept.Extra))) ∧
      p ∈ sampleStore.ReadConsensusNodes ∧ p.State = NodeStatePledging ∧
      (∀ m ∈ sampleStore.ReadConsensusNodes, m.State = NodeStatePledging → m = p) ∧
      (KeySize ≤ lastPledge.Extra.length →
        sampleEnv.AddressString p.Signer =
          sampleEnv.AddressString
            (deriveAddress sampleEnv (copyBytes zeroKey lastPledge.Extra))) :=
  ⟨by decide, rfl, by decide, by decide,
    validateNodeAccept_provenance sampleEnv (acceptTx 20000) sampleStore (by decide)⟩

/-- What the condition on the `Extra` of the pledge transaction leaves out: the
pledge transaction `txPShort` has a one-byte `Extra`, which holds no key, and
the second `copy` keeps 31 bytes of the key of the accept transaction.
`validateNodeAccept` returns `nil` on the address of the key so mixed, while
the address derived from the one byte padded with zeros is the signer of no
validator of the table. -/
theorem validateNodeAccept_short_pledge_extra :
    validateNodeAccept sampleEnv (acceptTx 20000) shortExtraStore = Outcome.nil ∧
    shortExtraStore.ReadTransaction hashP = (some txPShort, none) ∧
    copyBytes zeroKey txPShort.Extra = 80 :: List.replicate 31 0 ∧
    copyBytes (copyBytes zeroKey txA.Extra) txPShort.Extra = keyMixed ∧
    ∀ n ∈ shortExtraStore.ReadConsensusNodes,
      sampleEnv.AddressString n.Signer ≠
        sampleEnv.AddressString (deriveAddress sampleEnv (copyBytes zeroKey txPShort.Extra)) := by
  decide

/-- C6 (the code at the failing inputs): with the counts and the membership
check passed, a referenced transaction without outputs makes
`validateNodeAccept` panic with an index out of range, and a store that returns
`nil, nil` makes it panic with a nil dereference, for the first input and for
the second alike; two outputs give the descriptive error. -/
theorem validateNodeAccept_panics :
    validateNodeAccept sampleEnv (acceptTx 20000)
        (storeWith [nodeA, nodeP] (some txNoOutputs, none) (some txP, none)) =
      Outcome.panic Panic.indexOutOfRange ∧
    validateNodeAccept sampleEnv (acceptTx 20000)
        (storeWith [nodeA, nodeP] (none, none) (some txP, none)) =
      Outcome.panic Panic.nilDereference ∧
    validateNodeAccept sampleEnv (acceptTx 20000)
        (storeWith [nodeA, nodeP] (some txA, none) (some txNoOutputs, none)) =
      Outcome.panic Panic.indexOutOfRange ∧
    validateNodeAccept sampleEnv (acceptTx 20000)
        (storeWith [nodeA, nodeP] (some txA, none) (none, none)) =
      Outcome.panic Panic.nilDereference ∧
    validateNodeAccept sampleEnv (acceptTx 20000)
        (storeWith [nodeA, nodeP]
          (some { txA with Outputs := txA.Outputs ++ txA.Outputs }, none) (some txP, none)) =
      Outcome.error (Error.acceptUtxoCount 2) := by
  decide

/-- C7: with the counts and the membership check passed, an error `e` of
`ReadTransaction` for the first input is what `validateNodeAccept` returns; and
when the first read succeeds and the checks of the accept source pass, an error
`e` of `ReadTransaction` for the second input is what it returns. -/
theorem validateNodeAccept_store_error (env : Env) (tx : Transaction) (store : DataStore)
    (in0 in1 : Input) (p : Node) (filter : StateMap) (e : Error)
    (hO : tx.Outputs.length = 1) (hI : tx.Inputs = [in0, in1])
    (hL : acceptNodesLoop env store.ReadConsensusNodes none StateMap.empty =
      Membership.done (some p) filter) :
    (∀ t, store.ReadTransaction in0.Hash = (t, some e) →
      validateNodeAccept env tx store = Outcome.error e) ∧
    (∀ lastAccept ao t, store.ReadTransaction in0.Hash = (some lastAccept, none) →
      lastAccept.Outputs = [ao] → ao.Typ = env.OutputTypeNodeAccept →
      filter (env.AddressString (deriveAddress env (copyBytes zeroKey lastAccept.Extra))) =
        NodeStateAccepted →
      store.ReadTransaction in1.Hash = (t, some e) →
      validateNodeAccept env tx store = Outcome.error e) := by
  constructor
  · intro t hR
    unfold validateNodeAccept
    simp [hO, hI, hL, hR]
  · intro lastAccept ao t hRA hAo hAt hAs hRP
    unfold validateNodeAccept
    simp [hO, hI, hL, hRA, hAo, hAt, hAs, hRP]

theorem validateNodeAccept_store_error_witness :
    validateNodeAccept sampleEnv (acceptTx 20000)
        (storeWith [nodeA, nodeP] (none, some (Error.other "read failed")) (some txP, none)) =
      Outcome.error (Error.other "read failed") ∧
    validateNodeAccept sampleEnv (acceptTx 20000)
        (storeWith [nodeA, nodeP] (some txA, none) (some txP, some Error.noPledgingNode)) =
      Outcome.error Error.noPledgingNode :=
  ⟨(validateNodeAccept_store_error sampleEnv (acceptTx 20000)
      (storeWith [nodeA, nodeP] (none, some (Error.other "read failed")) (some txP, none))
      ⟨hashA, 0⟩ ⟨hashP, 0⟩ nodeP _ (Error.other "read failed") rfl rfl rfl).1 none rfl,
    (validateNodeAccept_store_error sampleEnv (acceptTx 20000)
      (storeWith [nodeA, nodeP] (some txA, none) (some txP, some Error.noPledgingNode))
      ⟨hashA, 0⟩ ⟨hashP, 0⟩ nodeP _ Error.noPledgingNode rfl rfl rfl).2
      txA ⟨164, 10000⟩ (some txP) rfl rfl rfl (by decide) rfl⟩

/-! ## Theorems: `CacheRound.asFinal` -/

/-- The bytes `putUint64` writes are the eight base-256 digits of `v`, the most
significant first. -/
theorem putUint64_value (v : Nat) :
    (putUint64 v).length = 8 ∧ (∀ b ∈ putUint64 v, b < 256) ∧
      (putUint64 v).foldl (fun acc b => acc * 256 + b) 0 = v % 2 ^ 64 := by
  refine ⟨rfl, ?_, ?_⟩
  · intro b hb
    simp only [putUint64, List.mem_cons, List.mem_singleton, List.not_mem_nil, or_false] at hb
    rcases hb with h | h | h | h | h | h | h | h <;> (subst h; omega)
  · simp only [putUint64, List.foldl_cons, List.foldl_nil]
    omega

theorem ByteOr_right_comm (h a b : Hash) : ByteOr (ByteOr h a) b = ByteOr (ByteOr h b) a := by
  unfold ByteOr
  induction h generalizing a b with
  | nil => simp
  | cons x xs ih =>
    cases a with
    | nil => cases b <;> simp
    | cons y ys =>
      cases b with
      | nil => simp
      | cons z zs =>
        simp only [List.zipWith_cons_cons, List.cons.injEq]
        exact ⟨by rw [Nat.lor_assoc, Nat.lor_comm y z, ← Nat.lor_assoc], ih ys zs⟩

/-- The hash the loop of `asFinal` leaves is the fold of `ByteOr` over the
payload hashes of the snapshots. -/
theorem asFinalLoop_hash (env : Env) (l : List Snapshot) (hash : Hash) (start endT : Nat) :
    (asFinalLoop env l hash start endT).1 =
      l.foldl (fun h s => ByteOr h (env.PayloadHash s)) hash := by
  induction l generalizing hash start endT with
  | nil => rfl
  | cons s rest ih => simp only [asFinalLoop, List.foldl_cons]; exact ih _ _ _

/-- The start the loop of `asFinal` leaves is the least of the initial start and
the timestamps of the snapshots. -/
theorem asFinalLoop_start (env : Env) (l : List Snapshot) (hash : Hash) (start endT : Nat) :
    ((asFinalLoop env l hash start endT).2.1 ≤ start ∧
      ∀ s ∈ l, (asFinalLoop env l hash start endT).2.1 ≤ s.Timestamp) ∧
    ((asFinalLoop env l hash start endT).2.1 = start ∨
      ∃ s ∈ l, (asFinalLoop env l hash start endT).2.1 = s.Timestamp) := by
  induction l generalizing hash start endT with
  | nil => simp [asFinalLoop]
  | cons x rest ih =>
    simp only [asFinalLoop]
    have hm : (if x.Timestamp < start then x.Timestamp else start) ≤ start ∧
        (if x.Timestamp < start then x.Timestamp else start) ≤ x.Timestamp ∧
        ((if x.Timestamp < start then x.Timestamp else start) = start ∨
          (if x.Timestamp < start then x.Timestamp else start) = x.Timestamp) := by
      split <;> omega
    generalize (if x.Timestamp < start then x.Timestamp else start) = s1 at hm ⊢
    generalize (if x.Timestamp > endT then x.Timestamp else endT) = e1
    obtain ⟨⟨h1, h2⟩, h3⟩ := ih (ByteOr hash (env.PayloadHash x)) s1 e1
    refine ⟨⟨by omega, ?_⟩, ?_⟩
    · intro s hs
      rcases List.mem_cons.1 hs with rfl | hs
      · omega
      · exact h2 s hs
    · rcases h3 with h3 | ⟨s, hs, h3⟩
      · rcases hm.2.2 with hm' | hm'
        · exact Or.inl (h3.trans hm')
        · exact Or.inr ⟨x, List.mem_cons_self _ _, h3.trans hm'⟩
      · exact Or.inr ⟨s, List.mem_cons_of_mem _ hs, h3⟩

/-- The end the loop of `asFinal` leaves is the greatest of the initial end and
the timestamps of the snapshots. -/
theorem asFinalLoop_end (env : Env) (l : List Snapshot) (hash : Hash) (start endT : Nat) :
    (endT ≤ (asFinalLoop env l hash start endT).2.2 ∧
      ∀ s ∈ l, s.Timestamp ≤ (asFinalLoop env l hash start endT).2.2) ∧
    ((asFinalLoop env l hash start endT).2.2 = endT ∨
      ∃ s ∈ l, (asFinalLoop env l hash start endT).2.2 = s.Timestamp) := by
  induction l generalizing hash start endT with
  | nil => simp [asFinalLoop]
  | cons x rest ih =>
    simp only [asFinalLoop]
    have hm : endT ≤ (if x.Timestamp > endT then x.Timestamp else endT) ∧
        x.Timestamp ≤ (if x.Timestamp > endT then x.Timestamp else endT) ∧
        ((if x.Timestamp > endT then x.Timestamp else endT) = endT ∨
          (if x.Timestamp > endT then x.Timestamp else endT) = x.Timestamp) := by
      split <;> omega
    generalize (if x.Timestamp > endT then x.Timestamp else endT) = e1 at hm ⊢
    generalize (if x.Timestamp < start then x.Timestamp else start) = s1
    obtain ⟨⟨h1, h2⟩, h3⟩ := ih (ByteOr hash (env.PayloadHash x)) s1 e1
    refine ⟨⟨by omega, ?_⟩, ?_⟩
    · intro s hs
      rcases List.mem_cons.1 hs with rfl | hs
      · omega
      · exact h2 s hs
    · rcases h3 with h3 | ⟨s, hs, h3⟩
      · rcases hm.2.2 with hm' | hm'
        · exact Or.inl (h3.trans hm')
        · exact Or.inr ⟨x, List.mem_cons_self _ _, h3.trans hm'⟩
      · exact Or.inr ⟨s, List.mem_cons_of_mem _ hs, h3⟩

/-- On a round with a first snapshot `asFinal` returns, and what it returns is
read off the loop. -/
theorem asFinal_cons (env : Env) (c : CacheRound) (s0 : Snapshot) (rest : List Snapshot)
    (hc : c.Snapshots = s0 :: rest) :
    c.asFinal env = Except.ok
      { NodeId := c.NodeId
        Number := c.Number
        Start := (asFinalLoop env c.Snapshots (env.NewHash (c.NodeId ++ putUint64 c.Number))
          s0.Timestamp 0).2.1
        End := (asFinalLoop env c.Snapshots (env.NewHash (c.NodeId ++ putUint64 c.Number))
          s0.Timestamp 0).2.2
        Hash := (asFinalLoop env c.Snapshots (env.NewHash (c.NodeId ++ putUint64 c.Number))
          s0.Timestamp 0).1 } := by
  unfold CacheRound.asFinal
  simp [hc]

/-- C8: the hash of the sealed round does not depend on the order of the
snapshots. On a round with at least one snapshot `asFinal` returns a round whose
hash is `NewHash (NodeId ++ putUint64 Number)` combined by `ByteOr` with the
payload hash of each snapshot, and the round with the snapshots in any other
order `l'` is sealed with the same hash. -/
theorem asFinal_hash_perm (env : Env) (c : CacheRound) (l' : List Snapshot)
    (hne : c.Snapshots ≠ []) (hp : l'.Perm c.Snapshots) :
    ∃ f f', c.asFinal env = Except.ok f ∧
      ({ c with Snapshots := l' } : CacheRound).asFinal env = Except.ok f' ∧
      f'.Hash = f.Hash ∧
      f.Hash = c.Snapshots.foldl (fun h s => ByteOr h (env.PayloadHash s))
        (env.NewHash (c.NodeId ++ putUint64 c.Number)) := by
  obtain ⟨s0, rest, hc⟩ := List.exists_cons_of_ne_nil hne
  have hne' : l' ≠ [] := fun h => hne (List.Perm.eq_nil (h ▸ hp.symm))
  obtain ⟨t0, rest', hc'⟩ := List.exists_cons_of_ne_nil hne'
  refine ⟨_, _, asFinal_cons env c s0 rest hc,
    asFinal_cons env { c with Snapshots := l' } t0 rest' hc', ?_, ?_⟩
  · simp only [asFinalLoop_hash]
    have : RightCommutative (fun (h : Hash) (s : Snapshot) => ByteOr h (env.PayloadHash s)) :=
      ⟨fun h a b => ByteOr_right_comm h (env.PayloadHash a) (env.PayloadHash b)⟩
    exact hp.foldl_eq _
  · simp only [asFinalLoop_hash]

theorem asFinal_hash_perm_witness :
    ∃ f f', (sampleRound [sampleSnapshot 5 1, sampleSnapshot 3 2, sampleSnapshot 9 4]).asFinal
        sampleEnv = Except.ok f ∧
      (sampleRound [sampleSnapshot 9 4, sampleSnapshot 5 1, sampleSnapshot 3 2]).asFinal
        sampleEnv = Except.ok f' ∧
      f'.Hash = f.Hash ∧ f.Hash = 7 :: List.replicate 31 1 := by
  obtain ⟨f, f', h1, h2, h3, h4⟩ := asFinal_hash_perm sampleEnv
    (sampleRound [sampleSnapshot 5 1, sampleSnapshot 3 2, sampleSnapshot 9 4])
    [sampleSnapshot 9 4, sampleSnapshot 5 1, sampleSnapshot 3 2] (by decide) (by decide)
  exact ⟨f, f', h1, h2, h3, h4.trans (by decide)⟩

/-- C9 (as stated, refuted): the round with the snapshots of timestamps 5 and 3,
in this order of arrival, is sealed with `Start` 3, not with the timestamp 5 of
its first snapshot. -/
theorem asFinal_start_not_first :
    ∃ f, (sampleRound [sampleSnapshot 5 1, sampleSnapshot 3 2]).asFinal sampleEnv =
        Except.ok f ∧
      f.Start = 3 ∧
      (sampleRound [sampleSnapshot 5 1, sampleSnapshot 3 2]).Snapshots[0]?.map
        Snapshot.Timestamp = some 5 :=
  ⟨_, rfl, rfl, rfl⟩

/-- C9 (amended): on a round whose snapshots are `s0 :: rest`, `asFinal` returns
a round whose `Start` is the least timestamp of the snapshots; it is the
timestamp of the first snapshot exactly when no later snapshot has a smaller
timestamp. -/
theorem asFinal_start_min (env : Env) (c : CacheRound) (s0 : Snapshot)
    (rest : List Snapshot) (hc : c.Snapshots = s0 :: rest) :
    ∃ f, c.asFinal env = Except.ok f ∧
      (∀ s ∈ c.Snapshots, f.Start ≤ s.Timestamp) ∧
      (∃ s ∈ c.Snapshots, f.Start = s.Timestamp) ∧
      (f.Start = s0.Timestamp ↔ ∀ s ∈ rest, s0.Timestamp ≤ s.Timestamp) := by
  refine ⟨_, asFinal_cons env c s0 rest hc, ?_⟩
  obtain ⟨⟨h1, h2⟩, h3⟩ := asFinalLoop_start env c.Snapshots
    (env.NewHash (c.NodeId ++ putUint64 c.Number)) s0.Timestamp 0
  have hs0 : s0 ∈ c.Snapshots := hc ▸ List.mem_cons_self _ _
  have hmem : ∃ s ∈ c.Snapshots, (asFinalLoop env c.Snapshots
      (env.NewHash (c.NodeId ++ putUint64 c.Number)) s0.Timestamp 0).2.1 = s.Timestamp := by
    rcases h3 with h3 | h3
    · exact ⟨s0, hs0, h3⟩
    · exact h3
  refine ⟨h2, hmem, ?_, ?_⟩
  · intro heq s hs
    have := h2 s (hc ▸ List.mem_cons_of_mem _ hs)
    simp only at heq
    omega
  · intro hle
    obtain ⟨s, hs, hst⟩ := hmem
    simp only
    rw [hc] at hs
    rcases List.mem_cons.1 hs with rfl | hs
    · exact hst
    · have := hle s hs
      omega

theorem asFinal_start_min_witness :
    ∃ f, (sampleRound [sampleSnapshot 5 1, sampleSnapshot 3 2]).asFinal sampleEnv =
        Except.ok f ∧
      (∀ s ∈ (sampleRound [sampleSnapshot 5 1, sampleSnapshot 3 2]).Snapshots,
        f.Start ≤ s.Timestamp) ∧
      (∃ s ∈ (sampleRound [sampleSnapshot 5 1, sampleSnapshot 3 2]).Snapshots,
        f.Start = s.Timestamp) ∧
      (f.Start = (sampleSnapshot 5 1).Timestamp ↔
        ∀ s ∈ [sampleSnapshot 3 2], (sampleSnapshot 5 1).Timestamp ≤ s.Timestamp) :=
  asFinal_start_min sampleEnv (sampleRound [sampleSnapshot 5 1, sampleSnapshot 3 2])
    (sampleSnapshot 5 1) [sampleSnapshot 3 2] rfl

/-- C10: on a round with at least one snapshot `asFinal` returns a round `f`
with the node id and the number of the open round, such that every snapshot has
its timestamp between `f.Start` and `f.End`, `f.End` is the greatest timestamp
of the snapshots and `f.Start ≤ f.End`. -/
theorem asFinal_bounds (env : Env) (c : CacheRound) (hne : c.Snapshots ≠ []) :
    ∃ f, c.asFinal env = Except.ok f ∧
      (∀ s ∈ c.Snapshots, f.Start ≤ s.Timestamp ∧ s.Timestamp ≤ f.End) ∧
      (∃ s ∈ c.Snapshots, f.End = s.Timestamp) ∧
      f.Start ≤ f.End ∧ f.NodeId = c.NodeId ∧ f.Number = c.Number := by
  obtain ⟨s0, rest, hc⟩ := List.exists_cons_of_ne_nil hne
  refine ⟨_, asFinal_cons env c s0 rest hc, ?_⟩
  obtain ⟨⟨_, h2⟩, _⟩ := asFinalLoop_start env c.Snapshots
    (env.NewHash (c.NodeId ++ putUint64 c.Number)) s0.Timestamp 0
  obtain ⟨⟨_, e2⟩, e3⟩ := asFinalLoop_end env c.Snapshots
    (env.NewHash (c.NodeId ++ putUint64 c.Number)) s0.Timestamp 0
  have hs0 : s0 ∈ c.Snapshots := hc ▸ List.mem_cons_self _ _
  refine ⟨fun s hs => ⟨h2 s hs, e2 s hs⟩, ?_, ?_, rfl, rfl⟩
  · rcases e3 with e3 | e3
    · refine ⟨s0, hs0, ?_⟩
      have := e2 s0 hs0
      simp only
      omega
    · exact e3
  · have a := h2 s0 hs0
    have b := e2 s0 hs0
    simp only
    omega

theorem asFinal_bounds_witness :
    ∃ f, (sampleRound [sampleSnapshot 5 1, sampleSnapshot 3 2, sampleSnapshot 9 4]).asFinal
        sampleEnv = Except.ok f ∧
      (∀ s ∈ (sampleRound [sampleSnapshot 5 1, sampleSnapshot 3 2,
          sampleSnapshot 9 4]).Snapshots, f.Start ≤ s.Timestamp ∧ s.Timestamp ≤ f.End) ∧
      (∃ s ∈ (sampleRound [sampleSnapshot 5 1, sampleSnapshot 3 2,
          sampleSnapshot 9 4]).Snapshots, f.End = s.Timestamp) ∧
      f.Start ≤ f.End ∧ f.NodeId = hashA ∧ f.Number = 7 :=
  asFinal_bounds sampleEnv
    (sampleRound [sampleSnapshot 5 1, sampleSnapshot 3 2, sampleSnapshot 9 4]) (by decide)

/-! ## Theorems: `loadFinalRoundForNode` -/

/-- The loop of `loadFinalRoundForNode` ends without panic exactly when every
timestamp lies between `start` and `endT`; it then leaves the hashes of the
payloads appended in the order of the snapshots, and it otherwise panics with a
snapshot that lies outside. -/
theorem loadFinalLoop_spec (env : Env) (start endT : Nat) (l : List Snapshot)
    (hashes : List Nat) :
    ((∀ s ∈ l, start ≤ s.Timestamp ∧ s.Timestamp ≤ endT) ∧
      loadFinalLoop env start endT l hashes =
        Except.ok (l.foldl (fun acc s => acc ++ env.NewHash s.Payload) hashes)) ∨
    (∃ s ∈ l, (s.Timestamp < start ∨ endT < s.Timestamp) ∧
      loadFinalLoop env start endT l hashes = Except.error (Panic.snapshot s)) := by
  induction l generalizing hashes with
  | nil => left; exact ⟨by simp, rfl⟩
  | cons x rest ih =>
    simp only [loadFinalLoop, List.foldl_cons]
    by_cases h1 : x.Timestamp < start
    · right
      exact ⟨x, List.mem_cons_self _ _, Or.inl h1, by rw [if_pos h1]⟩
    · by_cases h2 : x.Timestamp > endT
      · right
        exact ⟨x, List.mem_cons_self _ _, Or.inr h2, by rw [if_neg h1, if_pos h2]⟩
      · rw [if_neg h1, if_neg h2]
        rcases ih (hashes ++ env.NewHash x.Payload) with ⟨hall, hok⟩ | ⟨s, hs, hout, herr⟩
        · left
          refine ⟨?_, hok⟩
          intro s hs
          rcases List.mem_cons.1 hs with rfl | hs
          · omega
          · exact hall s hs
        · right
          exact ⟨s, List.mem_cons_of_mem _ hs, hout, herr⟩

/-- What `loadFinalRoundForNode` does on a sequence the store returns without
error, with first snapshot `first` and last snapshot `last`. -/
theorem loadFinalRoundForNode_read (env : Env) (store : Store) (id : Hash) (number : Nat)
    (snapshots : List Snapshot) (first last : Snapshot)
    (hread : store.ReadSnapshotsForNodeRound id number = (snapshots, none))
    (hfirst : snapshots.head? = some first) (hlast : snapshots.getLast? = some last) :
    loadFinalRoundForNode env store id number =
      match loadFinalLoop env first.Timestamp last.Timestamp snapshots (id ++ putUint64 number) with
      | Except.error p => Load.panic p
      | Except.ok hashes =>
        Load.ok { NodeId := id, Number := number, Start := first.Timestamp,
                  End := last.Timestamp, Hash := env.NewHash hashes } := by
  unfold loadFinalRoundForNode
  rw [List.head?_eq_getElem?] at hfirst
  rw [List.getLast?_eq_getElem?] at hlast
  simp only [hread, hfirst, hlast]

/-- C11: when the store returns the non-empty sequence `snapshots` and
`loadFinalRoundForNode` returns the round `f`, then `f` has the node id and the
number asked for, and its hash is `NewHash` of the node id, followed by the
eight big-endian bytes of the number, followed by the hashes of the payloads of
the snapshots in store order. -/
theorem loadFinalRoundForNode_hash (env : Env) (store : Store) (id : Hash) (number : Nat)
    (snapshots : List Snapshot) (f : FinalRound) (hne : snapshots ≠ [])
    (hread : store.ReadSnapshotsForNodeRound id number = (snapshots, none))
    (hok : loadFinalRoundForNode env store id number = Load.ok f) :
    f.NodeId = id ∧ f.Number = number ∧
      f.Hash = env.NewHash
        (snapshots.foldl (fun acc s => acc ++ env.NewHash s.Payload) (id ++ putUint64 number)) := by
  obtain ⟨first, hfirst⟩ : ∃ first, snapshots.head? = some first := by
    cases snapshots with
    | nil => exact absurd rfl hne
    | cons x _ => exact ⟨x, rfl⟩
  obtain ⟨last, hlast⟩ : ∃ last, snapshots.getLast? = some last :=
    ⟨snapshots.getLast hne, List.getLast?_eq_getLast _ hne⟩
  rw [loadFinalRoundForNode_read env store id number snapshots first last hread hfirst hlast]
    at hok
  rcases loadFinalLoop_spec env first.Timestamp last.Timestamp snapshots (id ++ putUint64 number)
    with ⟨_, hl⟩ | ⟨s, _, _, hl⟩
  · rw [hl] at hok
    injection hok with hf
    subst hf
    exact ⟨rfl, rfl, rfl⟩
  · rw [hl] at hok
    exact absurd hok (by simp)

theorem loadFinalRoundForNode_hash_witness :
    ∃ f, loadFinalRoundForNode sampleEnv
        (roundStore [sampleAccount keyA] (some (sampleMeta 3 1), none)
          (fun _ => ([sampleSnapshot 4 1, sampleSnapshot 9 2], none))) keyA 2 = Load.ok f ∧
      f.NodeId = keyA ∧ f.Number = 2 ∧
      f.Hash = sampleEnv.NewHash
        (keyA ++ putUint64 2 ++ sampleEnv.NewHash [1] ++ sampleEnv.NewHash [2]) :=
  ⟨_, rfl, loadFinalRoundForNode_hash sampleEnv
    (roundStore [sampleAccount keyA] (some (sampleMeta 3 1), none)
      (fun _ => ([sampleSnapshot 4 1, sampleSnapshot 9 2], none))) keyA 2
    [sampleSnapshot 4 1, sampleSnapshot 9 2] _ (by decide) rfl rfl⟩

/-- C12: on a non-empty sequence the store returns without error, with first
snapshot `first` and last snapshot `last`, `loadFinalRoundForNode` panics, and
so produces no round, exactly when a snapshot has a timestamp smaller than that
of `first` or larger than that of `last`; it never returns an error; and a round
`f` it returns has `Start` the timestamp of `first`, the earliest, `End` the
timestamp of `last`, the latest, and every timestamp between the two. -/
theorem loadFinalRoundForNode_bounds (env : Env) (store : Store) (id : Hash) (number : Nat)
    (snapshots : List Snapshot) (first last : Snapshot)
    (hread : store.ReadSnapshotsForNodeRound id number = (snapshots, none))
    (hfirst : snapshots.head? = some first) (hlast : snapshots.getLast? = some last) :
    ((∃ p, loadFinalRoundForNode env store id number = Load.panic p) ↔
      ∃ s ∈ snapshots, s.Timestamp < first.Timestamp ∨ last.Timestamp < s.Timestamp) ∧
    ((∃ f, loadFinalRoundForNode env store id number = Load.ok f) ↔
      ∀ s ∈ snapshots, first.Timestamp ≤ s.Timestamp ∧ s.Timestamp ≤ last.Timestamp) ∧
    (∀ e, loadFinalRoundForNode env store id number ≠ Load.error e) ∧
    (∀ f, loadFinalRoundForNode env store id number = Load.ok f →
      f.Start = first.Timestamp ∧ f.End = last.Timestamp ∧
      (∀ s ∈ snapshots, f.Start ≤ s.Timestamp ∧ s.Timestamp ≤ f.End) ∧
      (∃ s ∈ snapshots, f.Start = s.Timestamp) ∧ ∃ s ∈ snapshots, f.End = s.Timestamp) := by
  have hfm : first ∈ snapshots := List.mem_of_mem_head? hfirst
  have hlm : last ∈ snapshots := List.mem_of_mem_getLast? hlast
  rw [loadFinalRoundForNode_read env store id number snapshots first last hread hfirst hlast]
  rcases loadFinalLoop_spec env first.Timestamp last.Timestamp snapshots (id ++ putUint64 number)
    with ⟨hall, hl⟩ | ⟨s, hs, hout, hl⟩
  · rw [hl]
    refine ⟨⟨?_, ?_⟩, ⟨fun _ => hall, fun _ => ⟨_, rfl⟩⟩, ?_, ?_⟩
    · rintro ⟨p, hp⟩; exact absurd hp (by simp)
    · rintro ⟨s, hs, hout⟩
      have := hall s hs
      omega
    · intro e he; exact absurd he (by simp)
    · intro f hf
      injection hf with hf
      subst hf
      exact ⟨rfl, rfl, hall, ⟨first, hfm, rfl⟩, ⟨last, hlm, rfl⟩⟩
  · rw [hl]
    refine ⟨⟨fun _ => ⟨s, hs, hout⟩, fun _ => ⟨_, rfl⟩⟩, ⟨?_, ?_⟩, ?_, ?_⟩
    · rintro ⟨f, hf⟩; exact absurd hf (by simp)
    · intro hall
      have := hall s hs
      omega
    · intro e he; exact absurd he (by simp)
    · intro f hf; exact absurd hf (by simp)

theorem loadFinalRoundForNode_bounds_witness :
    (∃ p, loadFinalRoundForNode sampleEnv
        (roundStore [sampleAccount keyA] (some (sampleMeta 3 1), none)
          (fun _ => ([sampleSnapshot 4 1, sampleSnapshot 3 2, sampleSnapshot 9 4], none)))
        keyA 2 = Load.panic p) ∧
    ∃ f, loadFinalRoundForNode sampleEnv
        (roundStore [sampleAccount keyA] (some (sampleMeta 3 1), none)
          (fun _ => ([sampleSnapshot 4 1, sampleSnapshot 5 2, sampleSnapshot 9 4], none)))
        keyA 2 = Load.ok f :=
  ⟨(loadFinalRoundForNode_bounds sampleEnv
      (roundStore [sampleAccount keyA] (some (sampleMeta 3 1), none)
        (fun _ => ([sampleSnapshot 4 1, sampleSnapshot 3 2, sampleSnapshot 9 4], none)))
      keyA 2 [sampleSnapshot 4 1, sampleSnapshot 3 2, sampleSnapshot 9 4]
      (sampleSnapshot 4 1) (sampleSnapshot 9 4) rfl rfl rfl).1.2
      ⟨sampleSnapshot 3 2, by decide, by decide⟩,
    (loadFinalRoundForNode_bounds sampleEnv
      (roundStore [sampleAccount keyA] (some (sampleMeta 3 1), none)
        (fun _ => ([sampleSnapshot 4 1, sampleSnapshot 5 2, sampleSnapshot 9 4], none)))
      keyA 2 [sampleSnapshot 4 1, sampleSnapshot 5 2, sampleSnapshot 9 4]
      (sampleSnapshot 4 1) (sampleSnapshot 9 4) rfl rfl rfl).2.1.2 (by decide)⟩

/-! ## Theorems: `LoadRoundGraph` -/

theorem RoundMap.get_set {α : Type} (m : RoundMap α) (k k' : Hash) (v : α) :
    (m.set k v).get k' = if k' = k then some v else m.get k' := by
  induction m with
  | nil =>
    simp only [RoundMap.set, RoundMap.get]
    by_cases h : k = k'
    · simp [h]
    · have h' : ¬ k' = k := fun e => h e.symm
      simp [h, h']
  | cons kv rest ih =>
    simp only [RoundMap.set]
    by_cases h1 : kv.1 = k
    · rw [if_pos h1]
      simp only [RoundMap.get]
      by_cases h2 : k = k'
      · simp [h2]
      · have h3 : ¬ kv.1 = k' := fun h => h2 (h1 ▸ h)
        have h' : ¬ k' = k := fun e => h2 e.symm
        simp [h2, h3, h']
    · rw [if_neg h1]
      simp only [RoundMap.get, ih]
      by_cases h2 : kv.1 = k'
      · have h3 : ¬ k' = k := fun h => h1 (h ▸ h2)
        simp [h2, h3]
      · simp [h2]

/-- What a head round that loads holds: the id asked for and the number and the
timestamp of the metadata the store returns, and the store returns the
snapshots of that round without error. -/
theorem loadHeadRoundForNode_some (env : Env) (store : Store) (id : Hash) (cache : CacheRound)
    (h : loadHeadRoundForNode env store id = Load.ok (some cache)) :
    cache.NodeId = id ∧
      ∃ meta, store.ReadRound id = (some meta, none) ∧ cache.Number = meta.Number ∧
        cache.Start = meta.Timestamp ∧
        (store.ReadSnapshotsForNodeRound id meta.Number).2 = none := by
  unfold loadHeadRoundForNode at h
  rcases hR : store.ReadRound id with ⟨_ | meta, _ | e⟩
  · simp [hR] at h
  · simp [hR] at h
  swap
  · simp [hR] at h
  simp only [hR] at h
  rcases hS : store.ReadSnapshotsForNodeRound id meta.Number with ⟨snaps, _ | e⟩
  swap
  · simp [hS] at h
  simp only [hS] at h
  cases hL : loadHeadLoop env id meta.Timestamp snaps 0 with
  | error p => simp [hL] at h
  | ok endT =>
    simp only [hL] at h
    injection h with h
    injection h with h
    subst h
    exact ⟨rfl, meta, rfl, rfl, rfl, by rw [hS]⟩

/-- A head round that is absent or loads has been read without error. -/
theorem loadHeadRoundForNode_ok (env : Env) (store : Store) (id : Hash)
    (r : Option CacheRound) (h : loadHeadRoundForNode env store id = Load.ok r) :
    (store.ReadRound id).2 = none ∧
      ∀ meta, (store.ReadRound id).1 = some meta →
        (store.ReadSnapshotsForNodeRound id meta.Number).2 = none := by
  unfold loadHeadRoundForNode at h
  rcases hR : store.ReadRound id with ⟨_ | meta, _ | e⟩
  · exact ⟨rfl, fun m hm => absurd hm (by simp)⟩
  · simp [hR] at h
  swap
  · simp [hR] at h
  simp only [hR] at h
  rcases hS : store.ReadSnapshotsForNodeRound id meta.Number with ⟨snaps, _ | e⟩
  swap
  · simp [hS] at h
  refine ⟨rfl, fun m hm => ?_⟩
  simp only [Option.some.injEq] at hm
  subst hm
  rw [hS]

/-- A round to finalize that loads has the id and the number asked for, and the
store has returned its snapshots without error. -/
theorem loadFinalRoundForNode_ok (env : Env) (store : Store) (id : Hash) (number : Nat)
    (f : FinalRound) (h : loadFinalRoundForNode env store id number = Load.ok f) :
    f.NodeId = id ∧ f.Number = number ∧
      (store.ReadSnapshotsForNodeRound id number).2 = none := by
  unfold loadFinalRoundForNode at h
  rcases hS : store.ReadSnapshotsForNodeRound id number with ⟨snaps, _ | e⟩
  swap
  · simp [hS] at h
  simp only [hS] at h
  cases h0 : snaps[0]? with
  | none => simp [h0] at h
  | some first =>
    simp only [h0] at h
    cases h1 : snaps[snaps.length - 1]? with
    | none => simp [h1] at h
    | some last =>
      simp only [h1] at h
      cases hL : loadFinalLoop env first.Timestamp last.Timestamp snaps (id ++ putUint64 number) with
      | error p => simp [hL] at h
      | ok hashes =>
        simp only [hL] at h
        injection h with h
        subst h
        exact ⟨rfl, rfl, rfl⟩

/-- The body of the loop of `LoadRoundGraph`, by what the head round of the
validator loads as. -/
theorem loadRoundGraphStep_eq (env : Env) (store : Store) (networkId : Hash)
    (cn : ConsensusNode) (g : RoundGraph) :
    loadRoundGraphStep env store networkId cn g =
      match loadHeadRoundForNode env store (validatorId env networkId cn) with
      | Load.error err => Load.error err
      | Load.panic p => Load.panic p
      | Load.ok none => Load.ok { g with Nodes := g.Nodes ++ [validatorId env networkId cn] }
      | Load.ok (some cache) =>
        match loadFinalRoundForNode env store (validatorId env networkId cn)
            (finalNumber cache.Number) with
        | Load.error err => Load.error err
        | Load.panic p => Load.panic p
        | Load.ok final =>
          Load.ok
            { Nodes := g.Nodes ++ [validatorId env networkId cn]
              CacheRound :=
                if cache.Number = 0 then
                  (g.CacheRound.set cache.NodeId cache).set (validatorId env networkId cn)
                    (seedCacheRound (validatorId env networkId cn))
                else g.CacheRound.set cache.NodeId cache
              FinalRound := g.FinalRound.set final.NodeId final
              FinalCache := g.FinalCache } := by
  simp only [loadRoundGraphStep, validatorId, finalNumber]
  cases hH : loadHeadRoundForNode env store (env.ForNetwork (env.AddressHash cn.Account) networkId) with
  | error e => rfl
  | panic p => rfl
  | ok r =>
    cases r with
    | none => rfl
    | some cache =>
      simp only
      cases hF : loadFinalRoundForNode env store
          (env.ForNetwork (env.AddressHash cn.Account) networkId)
          (if cache.Number = 0 then cache.Number else cache.Number - 1) with
      | error e => rfl
      | panic p => rfl
      | ok final =>
        simp only
        by_cases h0 : cache.Number = 0 <;> simp [h0]

/-- The loop of `LoadRoundGraph` over validators `pre` followed by `l` is the
loop over `l` from the graph the loop over `pre` leaves; an error or a panic
among `pre` ends it. -/
theorem loadRoundGraphLoop_append (env : Env) (store : Store) (networkId : Hash)
    (pre l : List ConsensusNode) (g : RoundGraph) :
    loadRoundGraphLoop env store networkId (pre ++ l) g =
      match loadRoundGraphLoop env store networkId pre g with
      | Load.error err => Load.error err
      | Load.panic p => Load.panic p
      | Load.ok g' => loadRoundGraphLoop env store networkId l g' := by
  induction pre generalizing g with
  | nil => rfl
  | cons cn rest ih =>
    simp only [List.cons_append, loadRoundGraphLoop]
    cases loadRoundGraphStep env store networkId cn g with
    | error e => rfl
    | panic p => rfl
    | ok g1 => exact ih g1

/-- One iteration of the loop of `LoadRoundGraph` that ends without error keeps
the entries of the maps as the store gives them, appends the id of the
validator to `Nodes`, and has loaded the validator: its head round is absent,
or its head round and its round to finalize have loaded. -/
theorem loadRoundGraphStep_ok (env : Env) (store : Store) (networkId : Hash)
    (cn : ConsensusNode) (g g' : RoundGraph) (hg : GraphEntries env store g)
    (h : loadRoundGraphStep env store networkId cn g = Load.ok g') :
    GraphEntries env store g' ∧
      g'.Nodes = g.Nodes ++ [validatorId env networkId cn] ∧
      (loadHeadRoundForNode env store (validatorId env networkId cn) = Load.ok none ∨
        ∃ cache f,
          loadHeadRoundForNode env store (validatorId env networkId cn) =
            Load.ok (some cache) ∧
          loadFinalRoundForNode env store (validatorId env networkId cn)
            (finalNumber cache.Number) = Load.ok f) := by
  rw [loadRoundGraphStep_eq] at h
  cases hH : loadHeadRoundForNode env store (validatorId env networkId cn) with
  | error e => simp [hH] at h
  | panic p => simp [hH] at h
  | ok r =>
    cases r with
    | none =>
      simp only [hH] at h
      injection h with h
      subst h
      exact ⟨hg, rfl, Or.inl rfl⟩
    | some cache =>
      simp only [hH] at h
      cases hF : loadFinalRoundForNode env store (validatorId env networkId cn)
          (finalNumber cache.Number) with
      | error e => simp [hF] at h
      | panic p => simp [hF] at h
      | ok final =>
        simp only [hF] at h
        injection h with h
        subst h
        have hcid := (loadHeadRoundForNode_some env store _ cache hH).1
        have hfid := (loadFinalRoundForNode_ok env store _ _ final hF).1
        refine ⟨?_, rfl, Or.inr ⟨cache, final, rfl, hF⟩⟩
        intro id
        by_cases hid : id = validatorId env networkId cn
        · right
          refine ⟨cache, final, hid ▸ hH, hid ▸ hF, ?_, ?_⟩
          · simp only [hcid]
            by_cases h0 : cache.Number = 0
            · simp [h0, RoundMap.get_set, hid]
            · simp [h0, RoundMap.get_set, hid]
          · simp [hfid, RoundMap.get_set, hid]
        · have hc : (if cache.Number = 0 then
                (g.CacheRound.set cache.NodeId cache).set (validatorId env networkId cn)
                  (seedCacheRound (validatorId env networkId cn))
              else g.CacheRound.set cache.NodeId cache).get id = g.CacheRound.get id := by
            rw [hcid]
            by_cases h0 : cache.Number = 0
            · simp [h0, RoundMap.get_set, hid]
            · simp [h0, RoundMap.get_set, hid]
          have hf : (g.FinalRound.set final.NodeId final).get id = g.FinalRound.get id := by
            simp [hfid, RoundMap.get_set, hid]
          simp only [hc, hf]
          exact hg id

/-- The loop of `LoadRoundGraph`, when it ends without error. -/
theorem loadRoundGraphLoop_ok (env : Env) (store : Store) (networkId : Hash)
    (l : List ConsensusNode) (g g' : RoundGraph) (hg : GraphEntries env store g)
    (h : loadRoundGraphLoop env store networkId l g = Load.ok g') :
    GraphEntries env store g' ∧
      g'.Nodes = g.Nodes ++ l.map (validatorId env networkId) ∧
      ∀ cn ∈ l,
        loadHeadRoundForNode env store (validatorId env networkId cn) = Load.ok none ∨
        ∃ cache f,
          loadHeadRoundForNode env store (validatorId env networkId cn) =
            Load.ok (some cache) ∧
          loadFinalRoundForNode env store (validatorId env networkId cn)
            (finalNumber cache.Number) = Load.ok f := by
  induction l generalizing g with
  | nil =>
    simp only [loadRoundGraphLoop] at h
    injection h with h
    subst h
    exact ⟨hg, by simp, by simp⟩
  | cons cn rest ih =>
    simp only [loadRoundGraphLoop] at h
    cases hS : loadRoundGraphStep env store networkId cn g with
    | error e => simp [hS] at h
    | panic p => simp [hS] at h
    | ok g1 =>
      simp only [hS] at h
      obtain ⟨hg1, hn1, hl1⟩ := loadRoundGraphStep_ok env store networkId cn g g1 hg hS
      obtain ⟨hg2, hn2, hl2⟩ := ih g1 hg1 h
      refine ⟨hg2, ?_, ?_⟩
      · rw [hn2, hn1]; simp
      · intro c hc
        rcases List.mem_cons.1 hc with rfl | hc
        · exact hl1
        · exact hl2 c hc

/-- A `Print` that returns has found an entry in both maps for every id. -/
theorem printLoop_ok (env : Env) (g : RoundGraph) (ids : List Hash) (desc d : String)
    (h : printLoop env g ids desc = Except.ok d) :
    ∀ id ∈ ids, (∃ f, g.FinalRound.get id = some f) ∧ ∃ c, g.CacheRound.get id = some c := by
  induction ids generalizing desc with
  | nil => simp
  | cons x rest ih =>
    simp only [printLoop] at h
    cases hF : g.FinalRound.get x with
    | none => simp [hF] at h
    | some f =>
      simp only [hF] at h
      cases hC : g.CacheRound.get x with
      | none => simp [hC] at h
      | some c =>
        simp only [hC] at h
        intro id hid
        rcases List.mem_cons.1 hid with rfl | hid
        · exact ⟨⟨f, hF⟩, ⟨c, hC⟩⟩
        · exact ih _ h id hid

theorem graphEntries_empty (env : Env) (store : Store) : GraphEntries env store emptyGraph :=
  fun _ => Or.inl ⟨rfl, rfl⟩

/-- A graph `LoadRoundGraph` returns is the graph its loop leaves, printed
without panic, with the final cache filled in. -/
theorem LoadRoundGraph_ok (env : Env) (store : Store) (networkId : Hash) (g : RoundGraph)
    (h : LoadRoundGraph env store networkId = Load.ok g) :
    ∃ g0 d, loadRoundGraphLoop env store networkId store.ReadConsensusNodes emptyGraph =
        Load.ok g0 ∧
      g0.Print env = Except.ok d ∧ g = g0.UpdateFinalCache := by
  simp only [LoadRoundGraph] at h
  cases hL : loadRoundGraphLoop env store networkId store.ReadConsensusNodes emptyGraph with
  | error e => simp [emptyGraph] at hL; simp [hL] at h
  | panic p => simp [emptyGraph] at hL; simp [hL] at h
  | ok g0 =>
    simp only [emptyGraph] at hL
    simp only [hL] at h
    cases hP : g0.Print env with
    | error p => simp [hP] at h
    | ok d =>
      simp only [hP] at h
      injection h with h
      exact ⟨g0, d, rfl, hP, h.symm⟩

/-- An iteration of the loop of `LoadRoundGraph` for a validator whose head
round loads and whose round to finalize has no snapshots. -/
theorem loadRoundGraphStep_panic (env : Env) (store : Store) (networkId : Hash)
    (cn : ConsensusNode) (g : RoundGraph) (cache : CacheRound) (p : Panic)
    (hH : loadHeadRoundForNode env store (validatorId env networkId cn) = Load.ok (some cache))
    (hF : loadFinalRoundForNode env store (validatorId env networkId cn)
      (finalNumber cache.Number) = Load.panic p) :
    loadRoundGraphStep env store networkId cn g = Load.panic p := by
  rw [loadRoundGraphStep_eq]
  simp only [hH, hF]

/-- C13 (as stated, refuted): for a validator whose head round 3 loads and whose
round 2, the one to finalize, has no snapshots, `loadFinalRoundForNode` does not
return an error but panics with an index out of range, and so does
`LoadRoundGraph`. -/
theorem loadFinalRoundForNode_empty_no_error :
    loadFinalRoundForNode sampleEnv
        (roundStore [sampleAccount keyA] (some (sampleMeta 3 1), none)
          (fun n => if n = 2 then ([], none) else ([sampleSnapshot 4 1], none)))
        keyA 2 = Load.panic Panic.indexOutOfRange ∧
    LoadRoundGraph sampleEnv
        (roundStore [sampleAccount keyA] (some (sampleMeta 3 1), none)
          (fun n => if n = 2 then ([], none) else ([sampleSnapshot 4 1], none)))
        sampleNetwork = Load.panic Panic.indexOutOfRange := by
  decide

/-- C13 (amended): when the store returns the empty sequence, without error,
for the round to finalize, `loadFinalRoundForNode` panics with an index out of
range; and `LoadRoundGraph` panics the same way, returning neither a graph nor
an error, when this is the round to finalize of a validator whose head round
loads and the validators before it have loaded. -/
theorem loadFinalRoundForNode_empty (env : Env) (store : Store) (id : Hash) (number : Nat)
    (h : store.ReadSnapshotsForNodeRound id number = ([], none)) :
    loadFinalRoundForNode env store id number = Load.panic Panic.indexOutOfRange ∧
    ∀ networkId pre cn rest g cache,
      store.ReadConsensusNodes = pre ++ cn :: rest →
      loadRoundGraphLoop env store networkId pre emptyGraph = Load.ok g →
      validatorId env networkId cn = id →
      loadHeadRoundForNode env store id = Load.ok (some cache) →
      finalNumber cache.Number = number →
      LoadRoundGraph env store networkId = Load.panic Panic.indexOutOfRange := by
  have hF : loadFinalRoundForNode env store id number = Load.panic Panic.indexOutOfRange := by
    unfold loadFinalRoundForNode
    simp [h]
  refine ⟨hF, ?_⟩
  intro networkId pre cn rest g cache hN hpre hid hH hnum
  subst hid
  subst hnum
  have hstep := loadRoundGraphStep_panic env store networkId cn g cache _ hH hF
  have hloop : loadRoundGraphLoop env store networkId store.ReadConsensusNodes emptyGraph =
      Load.panic Panic.indexOutOfRange := by
    rw [hN, loadRoundGraphLoop_append, hpre]
    simp only [loadRoundGraphLoop, hstep]
  simp only [emptyGraph] at hloop
  simp only [LoadRoundGraph, hloop]

theorem loadFinalRoundForNode_empty_witness :
    loadFinalRoundForNode sampleEnv
        (roundStore [sampleAccount keyP, sampleAccount keyA] (some (sampleMeta 3 1), none)
          (fun n => if n = 2 then ([], none) else ([sampleSnapshot 4 1], none)))
        keyA 2 = Load.panic Panic.indexOutOfRange ∧
    LoadRoundGraph sampleEnv
        (roundStore [sampleAccount keyA] (some (sampleMeta 3 1), none)
          (fun n => if n = 2 then ([], none) else ([sampleSnapshot 4 1], none)))
        sampleNetwork = Load.panic Panic.indexOutOfRange :=
  ⟨(loadFinalRoundForNode_empty sampleEnv
      (roundStore [sampleAccount keyP, sampleAccount keyA] (some (sampleMeta 3 1), none)
        (fun n => if n = 2 then ([], none) else ([sampleSnapshot 4 1], none)))
      keyA 2 rfl).1,
    (loadFinalRoundForNode_empty sampleEnv
      (roundStore [sampleAccount keyA] (some (sampleMeta 3 1), none)
        (fun n => if n = 2 then ([], none) else ([sampleSnapshot 4 1], none)))
      keyA 2 rfl).2 sampleNetwork [] (sampleAccount keyA) [] emptyGraph _ rfl rfl rfl rfl rfl⟩

/-- What a graph `LoadRoundGraph` returns holds for a validator of the store:
its head round and its round to finalize load, and the maps hold, under the id
of the validator, the head round (the seeded round in place of the head round 0)
and the finalized round. -/
theorem LoadRoundGraph_entries (env : Env) (store : Store) (networkId : Hash)
    (g : RoundGraph) (h : LoadRoundGraph env store networkId = Load.ok g)
    (cn : ConsensusNode) (hcn : cn ∈ store.ReadConsensusNodes) :
    ∃ cache f,
      loadHeadRoundForNode env store (validatorId env networkId cn) = Load.ok (some cache) ∧
      loadFinalRoundForNode env store (validatorId env networkId cn)
        (finalNumber cache.Number) = Load.ok f ∧
      g.CacheRound.get (validatorId env networkId cn) =
        some (if cache.Number = 0 then seedCacheRound (validatorId env networkId cn)
          else cache) ∧
      g.FinalRound.get (validatorId env networkId cn) = some f := by
  obtain ⟨g0, d, hL, hP, hg⟩ := LoadRoundGraph_ok env store networkId g h
  obtain ⟨hE, hN, _⟩ := loadRoundGraphLoop_ok env store networkId _ emptyGraph g0
    (graphEntries_empty env store) hL
  have hmem : validatorId env networkId cn ∈ g0.Nodes := by
    rw [hN]
    exact List.mem_append_right _ (List.mem_map_of_mem _ hcn)
  have hpr : ∃ d', printLoop env g0 g0.Nodes "ROUND GRAPH BEGIN\n" = Except.ok d' := by
    unfold RoundGraph.Print at hP
    cases hpl : printLoop env g0 g0.Nodes "ROUND GRAPH BEGIN\n" with
    | error p => simp [hpl] at hP
    | ok d' => exact ⟨d', rfl⟩
  obtain ⟨d', hd'⟩ := hpr
  obtain ⟨⟨f, hf⟩, _⟩ := printLoop_ok env g0 g0.Nodes _ d' hd' _ hmem
  subst hg
  rcases hE (validatorId env networkId cn) with ⟨_, hnone⟩ | ⟨cache, f', hH, hF, hc, hf'⟩
  · rw [hnone] at hf; exact absurd hf (by simp)
  · exact ⟨cache, f', hH, hF, hc, hf'⟩

/-- C14 (as stated, refuted): for a store with one validator whose head round is
absent, `LoadRoundGraph` returns no graph: its loop makes no entry for the
validator, and `Print` panics on the missing entry. -/
theorem LoadRoundGraph_absent_head_panics :
    (roundStore [sampleAccount keyA] (none, none) (fun _ => ([sampleSnapshot 4 1], none))).ReadRound
        (validatorId sampleEnv sampleNetwork (sampleAccount keyA)) = (none, none) ∧
    LoadRoundGraph sampleEnv
        (roundStore [sampleAccount keyA] (none, none) (fun _ => ([sampleSnapshot 4 1], none)))
        sampleNetwork = Load.panic Panic.nilDereference := by
  decide

/-- C14 (amended): when the store reports no validator, `LoadRoundGraph` returns
the empty graph without error; for a validator whose head round is absent the
loop of `LoadRoundGraph` appends its id to `Nodes` and makes no entry in the
maps; and the round `CacheRound{NodeId: id, Number: 1, Start: 0}` is what a
returned graph holds for a validator whose head round has the number 0. -/
theorem LoadRoundGraph_seed (env : Env) (store : Store) (networkId : Hash) :
    (store.ReadConsensusNodes = [] → LoadRoundGraph env store networkId = Load.ok emptyGraph) ∧
    (∀ cn g, store.ReadRound (validatorId env networkId cn) = (none, none) →
      loadRoundGraphStep env store networkId cn g =
        Load.ok { g with Nodes := g.Nodes ++ [validatorId env networkId cn] }) ∧
    (∀ g cn meta, LoadRoundGraph env store networkId = Load.ok g →
      cn ∈ store.ReadConsensusNodes →
      store.ReadRound (validatorId env networkId cn) = (some meta, none) →
      meta.Number = 0 →
      g.CacheRound.get (validatorId env networkId cn) =
        some (seedCacheRound (validatorId env networkId cn))) := by
  refine ⟨?_, ?_, ?_⟩
  · intro hN
    simp only [LoadRoundGraph, hN, loadRoundGraphLoop, RoundGraph.Print, printLoop]
    rfl
  · intro cn g hR
    rw [loadRoundGraphStep_eq]
    have hH : loadHeadRoundForNode env store (validatorId env networkId cn) = Load.ok none := by
      unfold loadHeadRoundForNode
      simp only [hR]
    simp only [hH]
  · intro g cn meta h hcn hR h0
    obtain ⟨cache, f, hH, _, hc, _⟩ := LoadRoundGraph_entries env store networkId g h cn hcn
    obtain ⟨_, meta', hR', hnum, _⟩ := loadHeadRoundForNode_some env store _ cache hH
    rw [hR] at hR'
    simp only [Prod.mk.injEq, Option.some.injEq, and_true] at hR'
    subst hR'
    rw [hc, if_pos (hnum.trans h0)]

theorem LoadRoundGraph_seed_witness :
    LoadRoundGraph sampleEnv (roundStore [] (none, none) (fun _ => ([], none))) sampleNetwork =
        Load.ok emptyGraph ∧
    loadRoundGraphStep sampleEnv
        (roundStore [sampleAccount keyA] (none, none) (fun _ => ([sampleSnapshot 4 1], none)))
        sampleNetwork (sampleAccount keyA) emptyGraph =
      Load.ok { emptyGraph with Nodes := [keyA] } ∧
    ∃ g, LoadRoundGraph sampleEnv
        (roundStore [sampleAccount keyA] (some (sampleMeta 0 1), none)
          (fun _ => ([sampleSnapshot 4 1], none))) sampleNetwork = Load.ok g ∧
      g.CacheRound.get keyA = some (seedCacheRound keyA) :=
  ⟨(LoadRoundGraph_seed sampleEnv (roundStore [] (none, none) (fun _ => ([], none)))
      sampleNetwork).1 rfl,
    (LoadRoundGraph_seed sampleEnv
      (roundStore [sampleAccount keyA] (none, none) (fun _ => ([sampleSnapshot 4 1], none)))
      sampleNetwork).2.1 (sampleAccount keyA) emptyGraph rfl,
    _, rfl,
    (LoadRoundGraph_seed sampleEnv
      (roundStore [sampleAccount keyA] (some (sampleMeta 0 1), none)
        (fun _ => ([sampleSnapshot 4 1], none))) sampleNetwork).2.2 _ (sampleAccount keyA)
      (sampleMeta 0 1) rfl (by decide) rfl rfl⟩

/-- The entries of a graph `LoadRoundGraph` returns are what the store gives. -/
theorem LoadRoundGraph_graphEntries (env : Env) (store : Store) (networkId : Hash)
    (g : RoundGraph) (h : LoadRoundGraph env store networkId = Load.ok g) :
    GraphEntries env store g := by
  obtain ⟨g0, d, hL, _, hg⟩ := LoadRoundGraph_ok env store networkId g h
  obtain ⟨hE, _, _⟩ := loadRoundGraphLoop_ok env store networkId _ emptyGraph g0
    (graphEntries_empty env store) hL
  subst hg
  exact hE

/-- C15: in a graph `LoadRoundGraph` returns, every validator of the store has a
head round, of some number `n`; the round finalized for it has the number
`n - 1`, and 0 when `n` is 0, and the open round the graph holds for it has that
number plus one. And for every id with an entry in both maps, the number of the
open round is the number of the finalized round plus one, and both rounds carry
the id. -/
theorem LoadRoundGraph_numbers (env : Env) (store : Store) (networkId : Hash) (g : RoundGraph)
    (h : LoadRoundGraph env store networkId = Load.ok g) :
    (∀ cn ∈ store.ReadConsensusNodes,
      ∃ meta c f, store.ReadRound (validatorId env networkId cn) = (some meta, none) ∧
        g.CacheRound.get (validatorId env networkId cn) = some c ∧
        g.FinalRound.get (validatorId env networkId cn) = some f ∧
        f.Number = (if meta.Number = 0 then 0 else meta.Number - 1) ∧
        c.Number = f.Number + 1) ∧
    (∀ id c f, g.CacheRound.get id = some c → g.FinalRound.get id = some f →
      c.Number = f.Number + 1 ∧ c.NodeId = id ∧ f.NodeId = id) := by
  have key : ∀ id c f, g.CacheRound.get id = some c → g.FinalRound.get id = some f →
      ∃ cache, loadHeadRoundForNode env store id = Load.ok (some cache) ∧
        f.Number = finalNumber cache.Number ∧
        c.Number = f.Number + 1 ∧ c.NodeId = id ∧ f.NodeId = id := by
    intro id c f hc hf
    rcases LoadRoundGraph_graphEntries env store networkId g h id with
      ⟨hnone, _⟩ | ⟨cache, f', hH, hF, hc', hf'⟩
    · rw [hnone] at hc; exact absurd hc (by simp)
    · rw [hc] at hc'
      rw [hf] at hf'
      injection hc' with hc'
      injection hf' with hf'
      subst hf'
      obtain ⟨hfid, hfn, _⟩ := loadFinalRoundForNode_ok env store id _ f hF
      have hcid := (loadHeadRoundForNode_some env store id cache hH).1
      refine ⟨cache, hH, hfn, ?_, ?_, hfid⟩
      · rw [hfn, hc']
        unfold finalNumber
        by_cases h0 : cache.Number = 0
        · simp [h0, seedCacheRound]
        · simp only [h0, if_false]; omega
      · rw [hc']
        by_cases h0 : cache.Number = 0
        · simp [h0, seedCacheRound]
        · simp [h0, hcid]
  refine ⟨?_, fun id c f hc hf => ?_⟩
  · intro cn hcn
    obtain ⟨cache, f, hH, _, hc, hf⟩ := LoadRoundGraph_entries env store networkId g h cn hcn
    obtain ⟨cache', hH', hfn, hcn', _, _⟩ := key _ _ f hc hf
    rw [hH] at hH'
    injection hH' with hH'
    injection hH' with hH'
    subst hH'
    obtain ⟨_, meta, hR, hnum, _⟩ := loadHeadRoundForNode_some env store _ cache hH
    refine ⟨meta, _, f, hR, hc, hf, ?_, hcn'⟩
    rw [hfn, ← hnum]
    unfold finalNumber
    by_cases h0 : cache.Number = 0
    · simp [h0]
    · simp [h0]
  · obtain ⟨_, _, _, h1, h2, h3⟩ := key id c f hc hf
    exact ⟨h1, h2, h3⟩

theorem LoadRoundGraph_numbers_witness :
    ∃ g, LoadRoundGraph sampleEnv
        (roundStore [sampleAccount keyA, sampleAccount keyP] (some (sampleMeta 3 1), none)
          (fun n => ([sampleSnapshot (n + 1) 1, sampleSnapshot (n + 5) 2], none)))
        sampleNetwork = Load.ok g ∧
      (g.CacheRound.get keyP).map CacheRound.Number = some 3 ∧
      (g.FinalRound.get keyP).map FinalRound.Number = some 2 ∧
      ∀ id c f, g.CacheRound.get id = some c → g.FinalRound.get id = some f →
        c.Number = f.Number + 1 ∧ c.NodeId = id ∧ f.NodeId = id :=
  ⟨_, rfl, rfl, rfl,
    (LoadRoundGraph_numbers sampleEnv
      (roundStore [sampleAccount keyA, sampleAccount keyP] (some (sampleMeta 3 1), none)
        (fun n => ([sampleSnapshot (n + 1) 1, sampleSnapshot (n + 5) 2], none)))
      sampleNetwork _ rfl).2⟩

/-- The body of the loop of `LoadRoundGraph` returns the error of the store when
`ReadRound` fails, when `ReadSnapshotsForNodeRound` fails for the head round, or
when it fails for the round to finalize. -/
theorem loadRoundGraphStep_error (env : Env) (store : Store) (networkId : Hash)
    (cn : ConsensusNode) (g : RoundGraph) (e : Error)
    (h : (∃ m, store.ReadRound (validatorId env networkId cn) = (m, some e)) ∨
      (∃ meta l, store.ReadRound (validatorId env networkId cn) = (some meta, none) ∧
        store.ReadSnapshotsForNodeRound (validatorId env networkId cn) meta.Number =
          (l, some e)) ∨
      (∃ cache l,
        loadHeadRoundForNode env store (validatorId env networkId cn) = Load.ok (some cache) ∧
        store.ReadSnapshotsForNodeRound (validatorId env networkId cn)
          (finalNumber cache.Number) = (l, some e))) :
    loadRoundGraphStep env store networkId cn g = Load.error e := by
  rw [loadRoundGraphStep_eq]
  rcases h with ⟨m, hR⟩ | ⟨meta, l, hR, hS⟩ | ⟨cache, l, hH, hS⟩
  · have hH : loadHeadRoundForNode env store (validatorId env networkId cn) = Load.error e := by
      unfold loadHeadRoundForNode
      simp only [hR]
    simp only [hH]
  · have hH : loadHeadRoundForNode env store (validatorId env networkId cn) = Load.error e := by
      unfold loadHeadRoundForNode
      simp only [hR, hS]
    simp only [hH]
  · have hF : loadFinalRoundForNode env store (validatorId env networkId cn)
        (finalNumber cache.Number) = Load.error e := by
      unfold loadFinalRoundForNode
      simp only [hS]
    simp only [hH, hF]

/-- C16: `LoadRoundGraph` returns a graph or an error, never both. When the
validators before `cn` have loaded and, for `cn`, `ReadRound` fails with the
error `e`, or `ReadSnapshotsForNodeRound` fails with `e` for its head round or
for its round to finalize, `LoadRoundGraph` returns `e` and no graph; and when
it returns a graph, every read of the store for every validator was without
error. -/
theorem LoadRoundGraph_all_or_nothing (env : Env) (store : Store) (networkId : Hash) :
    (∀ pre cn rest g0 e, store.ReadConsensusNodes = pre ++ cn :: rest →
      loadRoundGraphLoop env store networkId pre emptyGraph = Load.ok g0 →
      ((∃ m, store.ReadRound (validatorId env networkId cn) = (m, some e)) ∨
        (∃ meta l, store.ReadRound (validatorId env networkId cn) = (some meta, none) ∧
          store.ReadSnapshotsForNodeRound (validatorId env networkId cn) meta.Number =
            (l, some e)) ∨
        (∃ cache l,
          loadHeadRoundForNode env store (validatorId env networkId cn) =
            Load.ok (some cache) ∧
          store.ReadSnapshotsForNodeRound (validatorId env networkId cn)
            (finalNumber cache.Number) = (l, some e))) →
      LoadRoundGraph env store networkId = Load.error e) ∧
    (∀ g, LoadRoundGraph env store networkId = Load.ok g →
      ∀ cn ∈ store.ReadConsensusNodes,
        (store.ReadRound (validatorId env networkId cn)).2 = none ∧
        ∀ meta, (store.ReadRound (validatorId env networkId cn)).1 = some meta →
          (store.ReadSnapshotsForNodeRound (validatorId env networkId cn) meta.Number).2 =
            none ∧
          (store.ReadSnapshotsForNodeRound (validatorId env networkId cn)
            (finalNumber meta.Number)).2 = none) := by
  constructor
  · intro pre cn rest g0 e hN hpre hfail
    have hstep := loadRoundGraphStep_error env store networkId cn g0 e hfail
    have hloop : loadRoundGraphLoop env store networkId store.ReadConsensusNodes emptyGraph =
        Load.error e := by
      rw [hN, loadRoundGraphLoop_append, hpre]
      simp only [loadRoundGraphLoop, hstep]
    simp only [emptyGraph] at hloop
    simp only [LoadRoundGraph, hloop]
  · intro g h cn hcn
    obtain ⟨cache, f, hH, hF, _, _⟩ := LoadRoundGraph_entries env store networkId g h cn hcn
    obtain ⟨hR2, hS⟩ := loadHeadRoundForNode_ok env store _ _ hH
    obtain ⟨_, meta', hR, hnum, _⟩ := loadHeadRoundForNode_some env store _ cache hH
    refine ⟨hR2, fun meta hm => ⟨hS meta hm, ?_⟩⟩
    rw [hR] at hm
    simp only [Option.some.injEq] at hm
    subst hm
    rw [← hnum]
    exact (loadFinalRoundForNode_ok env store _ _ f hF).2.2

theorem LoadRoundGraph_all_or_nothing_witness :
    LoadRoundGraph sampleEnv
        { ReadConsensusNodes := [sampleAccount keyA, sampleAccount keyP]
          ReadRound := fun id =>
            if id = keyA then (some (sampleMeta 3 1), none)
            else (none, some (Error.other "read failed"))
          ReadSnapshotsForNodeRound := fun _ n =>
            ([sampleSnapshot (n + 1) 1, sampleSnapshot (n + 5) 2], none) }
        sampleNetwork = Load.error (Error.other "read failed") ∧
    LoadRoundGraph sampleEnv
        (roundStore [sampleAccount keyA] (some (sampleMeta 3 1), none)
          (fun n => if n = 2 then ([], some (Error.other "read failed"))
            else ([sampleSnapshot 4 1], none)))
        sampleNetwork = Load.error (Error.other "read failed") :=
  ⟨(LoadRoundGraph_all_or_nothing sampleEnv
      { ReadConsensusNodes := [sampleAccount keyA, sampleAccount keyP]
        ReadRound := fun id =>
          if id = keyA then (some (sampleMeta 3 1), none)
          else (none, some (Error.other "read failed"))
        ReadSnapshotsForNodeRound := fun _ n =>
          ([sampleSnapshot (n + 1) 1, sampleSnapshot (n + 5) 2], none) }
      sampleNetwork).1 [sampleAccount keyA] (sampleAccount keyP) [] _
      (Error.other "read failed") rfl rfl (Or.inl ⟨none, rfl⟩),
    (LoadRoundGraph_all_or_nothing sampleEnv
      (roundStore [sampleAccount keyA] (some (sampleMeta 3 1), none)
        (fun n => if n = 2 then ([], some (Error.other "read failed"))
          else ([sampleSnapshot 4 1], none)))
      sampleNetwork).1 [] (sampleAccount keyA) [] emptyGraph
      (Error.other "read failed") rfl rfl (Or.inr (Or.inr ⟨_, [], rfl, rfl⟩))⟩

/-! ## Theorems: the dereference of `pledging` and the reuse of `publicSpend` -/

/-- A validator whose state is none of the three known ones, met while no
pledging node is recorded, sends the membership loop into the branch that reads
`pledging.Signer`: the loop panics. -/
theorem acceptNodesLoop_unknown_state (env : Env) (pre : List Node) (n : Node)
    (rest : List Node) (f0 : StateMap) (hpre : ∀ m ∈ pre, m.State = NodeStateAccepted)
    (hp : n.State ≠ NodeStatePledging) (ha : n.State ≠ NodeStateAccepted)
    (hd : n.State ≠ NodeStateDeparting) :
    acceptNodesLoop env (pre ++ n :: rest) none f0 = Membership.panic Panic.nilDereference := by
  induction pre generalizing f0 with
  | nil =>
    simp only [List.nil_append, acceptNodesLoop]
    rw [if_neg hd, if_neg ha, if_neg (fun h => hp h.1)]
  | cons x xs ih =>
    rw [List.cons_append,
      acceptNodesLoop_accepted env x _ none f0 (hpre x (List.mem_cons_self _ _))]
    exact ih _ (fun m hm => hpre m (List.mem_cons_of_mem _ hm))

/-- C19: on a table whose states are `PLEDGING`, `ACCEPTED` or `DEPARTING` the
membership loop never panics, so `pledging` is not read while `nil`; it ends
with an error, or with no pledging node, in which case `validateNodeAccept`
returns the error of the check that follows the loop, or with the one
`PLEDGING` validator of the table recorded. The condition on the states is
needed: a validator with another state, after accepted validators only, makes
the loop read `pledging.Signer` while `pledging` is `nil`. -/
theorem acceptNodesLoop_dereference (env : Env) :
    (∀ nodes : List Node,
      (∀ n ∈ nodes, n.State = NodeStatePledging ∨ n.State = NodeStateAccepted ∨
        n.State = NodeStateDeparting) →
      (∀ p, acceptNodesLoop env nodes none StateMap.empty ≠ Membership.panic p) ∧
      ((∃ e, acceptNodesLoop env nodes none StateMap.empty = Membership.error e) ∨
        (∃ f, acceptNodesLoop env nodes none StateMap.empty = Membership.done none f ∧
          ∀ tx store, store.ReadConsensusNodes = nodes → tx.Outputs.length = 1 →
            tx.Inputs.length = 2 →
            validateNodeAccept env tx store = Outcome.error Error.noPledgingNode) ∨
        (∃ p f, acceptNodesLoop env nodes none StateMap.empty = Membership.done (some p) f ∧
          p ∈ nodes ∧ p.State = NodeStatePledging ∧ pledgingCount nodes = 1 ∧
          ∀ m ∈ nodes, m.State = NodeStatePledging → m = p))) ∧
    (∀ (pre : List Node) (n : Node) (rest : List Node),
      (∀ m ∈ pre, m.State = NodeStateAccepted) →
      n.State ≠ NodeStatePledging → n.State ≠ NodeStateAccepted →
      n.State ≠ NodeStateDeparting →
      acceptNodesLoop env (pre ++ n :: rest) none StateMap.empty =
        Membership.panic Panic.nilDereference) := by
  constructor
  · intro nodes h3
    have key := acceptNodesLoop_three env nodes h3 none StateMap.empty
    simp only [Option.isSome_none, Bool.false_eq_true, if_false, Nat.add_zero, false_or] at key
    rcases key with ⟨⟨p, f, hl, hp⟩, _, hc⟩ | ⟨⟨e, hl⟩, _⟩
    · refine ⟨fun q hq => ?_, Or.inr ?_⟩
      · rw [hl] at hq; exact absurd hq (by simp)
      · cases p with
        | none =>
          left
          refine ⟨f, hl, ?_⟩
          intro tx store hN hO hI
          unfold validateNodeAccept
          simp [hO, hI, hN, hl]
        | some p =>
          right
          obtain ⟨_, hp'⟩ := acceptNodesLoop_pledging env nodes none (some p) _ f hl
          obtain ⟨hm, hs, hu⟩ := hp' rfl p rfl
          have := hp.1 rfl
          exact ⟨p, f, hl, hm, hs, by omega, hu⟩
    · refine ⟨fun q hq => ?_, Or.inl ⟨e, hl⟩⟩
      rw [hl] at hq; exact absurd hq (by simp)
  · intro pre n rest hpre hp ha hd
    exact acceptNodesLoop_unknown_state env pre n rest _ hpre hp ha hd

theorem acceptNodesLoop_dereference_witness :
    (∀ p, acceptNodesLoop sampleEnv [nodeA, nodeP] none StateMap.empty ≠ Membership.panic p) ∧
    acceptNodesLoop sampleEnv ([nodeA] ++ sampleNode keyB "REMOVED" :: [nodeP]) none
      StateMap.empty = Membership.panic Panic.nilDereference :=
  ⟨((acceptNodesLoop_dereference sampleEnv).1 [nodeA, nodeP] (by decide)).1,
    (acceptNodesLoop_dereference sampleEnv).2 [nodeA] (sampleNode keyB "REMOVED") [nodeP]
      (by decide) (by decide) (by decide) (by decide)⟩

/-- C20 (the code at the failing input): two runs that differ only in the
`Extra` of the transaction of the first input, both passing the checks of the
accept source, with a pledge transaction whose `Extra` is one byte long. The
spend keys derived for the pledge source differ, in the 31 bytes the second
`copy` leaves in place, and so do the results of `validateNodeAccept`. -/
theorem validateNodeAccept_pledge_key_depends_on_accept :
    validateNodeAccept sampleEnv (acceptTx 30000)
        (storeWith threeNodes (some (sourceTx 164 20000 keyA), none) (some txPShort, none)) =
      Outcome.nil ∧
    validateNodeAccept sampleEnv (acceptTx 30000)
        (storeWith threeNodes (some (sourceTx 164 20000 keyB), none) (some txPShort, none)) =
      Outcome.error (Error.pledgeUtxoSource "") ∧
    copyBytes (copyBytes zeroKey (sourceTx 164 20000 keyA).Extra) txPShort.Extra =
      80 :: List.replicate 31 65 ∧
    copyBytes (copyBytes zeroKey (sourceTx 164 20000 keyB).Extra) txPShort.Extra =
      80 :: List.replicate 31 66 := by
  decide

/-- With a pledge transaction whose `Extra` holds a whole key, the spend key
derived for the pledge source is the first key of that `Extra`, whatever the
`Extra` of the accept transaction. -/
theorem pledge_key_of_whole_key (acceptExtra pledgeExtra : List Nat)
    (h : KeySize ≤ pledgeExtra.length) :
    copyBytes (copyBytes zeroKey acceptExtra) pledgeExtra = pledgeExtra.take KeySize := by
  rw [copyBytes_copyBytes_of_le zeroKey _ _ (by simpa [zeroKey] using h),
    copyBytes_of_le _ _ (by simpa [zeroKey] using h)]
  simp [zeroKey]

/-! ## Theorems: `Copy` -/

theorem Heap.writeList_frame (h : Heap) (a : Nat) (i : Nat) (xs : List Snapshot) :
    (h.writeList a i xs).rounds = h.rounds ∧ (h.writeList a i xs).nextRound = h.nextRound ∧
      (h.writeList a i xs).nextArray = h.nextArray ∧
      (h.writeList a i xs).finals = h.finals ∧
      (h.writeList a i xs).nextFinal = h.nextFinal ∧
      (∀ a' j, a' ≠ a → (h.writeList a i xs).arrays a' j = h.arrays a' j) ∧
      ∀ j, j < i → (h.writeList a i xs).arrays a j = h.arrays a j := by
  induction xs generalizing h i with
  | nil => simp [Heap.writeList]
  | cons x xs ih =>
    simp only [Heap.writeList]
    obtain ⟨h1, h2, h3, h4, h5, h6, h7⟩ := ih
      { h with arrays := fun a' i' => if a' = a ∧ i' = i then x else h.arrays a' i' } (i + 1)
    refine ⟨h1, h2, h3, h4, h5, ?_, ?_⟩
    · intro a' j ha
      rw [h6 a' j ha]
      simp [ha]
    · intro j hj
      rw [h7 j (by omega)]
      have : j ≠ i := by omega
      simp [this]

theorem Heap.writeList_read (h : Heap) (a : Nat) (i : Nat) (xs : List Snapshot) (k : Nat)
    (hk : k < xs.length) : (h.writeList a i xs).arrays a (i + k) = xs.get ⟨k, hk⟩ := by
  induction xs generalizing h i k with
  | nil => exact absurd hk (by simp)
  | cons x xs ih =>
    simp only [Heap.writeList]
    cases k with
    | zero =>
      show (Heap.writeList _ a (i + 1) xs).arrays a i = x
      rw [(Heap.writeList_frame _ a (i + 1) xs).2.2.2.2.2.2 i (by omega)]
      simp
    | succ k =>
      have := ih { h with arrays := fun a' i' => if a' = a ∧ i' = i then x else h.arrays a' i' }
        (i + 1) k (by simpa using hk)
      rw [show i + (k + 1) = i + 1 + k by omega, this]
      rfl

/-- Reading back the elements `writeList` has stored. -/
theorem Heap.readSlice_writeList (h : Heap) (a i cap : Nat) (xs : List Snapshot) :
    (h.writeList a i xs).readSlice { array := a, offset := i, len := xs.length, cap := cap } =
      xs := by
  apply List.ext_get
  · simp [Heap.readSlice]
  · intro k h1 h2
    simp only [Heap.readSlice, List.get_eq_getElem, List.getElem_map, List.getElem_range]
    exact Heap.writeList_read h a i xs k h2

/-- The elements of a slice depend on its backing array only. -/
theorem Heap.readSlice_congr (h h' : Heap) (s : Slice)
    (he : ∀ j, h'.arrays s.array j = h.arrays s.array j) :
    h'.readSlice s = h.readSlice s := by
  simp only [Heap.readSlice, he]

/-- What `append` does to the memory: it leaves the structs alone, allocates at
most one array, and stores into the backing array of the slice it returns only,
which is the array of the slice it got or the one it allocates. -/
theorem Heap.append_frame (h : Heap) (capFor : Nat → Nat) (s : Slice) (xs : List Snapshot) :
    (h.append capFor s xs).1.rounds = h.rounds ∧
      (h.append capFor s xs).1.nextRound = h.nextRound ∧
      (h.append capFor s xs).1.finals = h.finals ∧
      (h.append capFor s xs).1.nextFinal = h.nextFinal ∧
      h.nextArray ≤ (h.append capFor s xs).1.nextArray ∧
      ((h.append capFor s xs).2.array = s.array ∨
        (h.append capFor s xs).2.array = h.nextArray) ∧
      ∀ a j, a ≠ (h.append capFor s xs).2.array →
        ((h.append capFor s xs).1).arrays a j = h.arrays a j := by
  by_cases hcap : s.len + xs.length ≤ s.cap
  · have e : h.append capFor s xs =
        (h.writeList s.array (s.offset + s.len) xs, { s with len := s.len + xs.length }) := by
      unfold Heap.append
      rw [if_pos hcap]
    rw [e]
    obtain ⟨h1, h2, h3, h4, h5, h6, _⟩ := Heap.writeList_frame h s.array (s.offset + s.len) xs
    exact ⟨h1, h2, h4, h5, by rw [h3], Or.inl rfl, fun a j ha => h6 a j ha⟩
  · have e : h.append capFor s xs =
        (Heap.writeList { h with nextArray := h.nextArray + 1 } h.nextArray 0
            (h.readSlice s ++ xs),
          { array := h.nextArray, offset := 0, len := (h.readSlice s ++ xs).length,
            cap := max (h.readSlice s ++ xs).length (capFor (h.readSlice s ++ xs).length) }) := by
      unfold Heap.append
      rw [if_neg hcap]
    rw [e]
    obtain ⟨h1, h2, h3, h4, h5, h6, _⟩ := Heap.writeList_frame
      { h with nextArray := h.nextArray + 1 } h.nextArray 0 (h.readSlice s ++ xs)
    refine ⟨h1, h2, h4, h5, ?_, Or.inr rfl, fun a j ha => h6 a j ha⟩
    rw [h3]
    exact Nat.le_succ _

/-- The round at `c` as a value, when it is out of reach of the round at `r`. -/
theorem Heap.viewRound_of_separate (h : Heap) (c r : Nat) (cell : RoundCell)
    (orig : Nat → Snapshot) (hs : h.Separate c r cell orig) :
    h.viewRound c = some
      { NodeId := cell.NodeId, Number := cell.Number, Start := cell.Start,
        References := cell.References, End := cell.End,
        Snapshots := (List.range cell.Snapshots.len).map fun i =>
          orig (cell.Snapshots.offset + i) } := by
  obtain ⟨hc, ha, _⟩ := hs
  simp only [Heap.viewRound, hc, Heap.readSlice, ha]

/-- A store of a struct at `r` keeps a round at `c` out of reach, as long as the
slice of the new struct has another backing array. -/
theorem Heap.separate_setRound (h : Heap) (c r : Nat) (cell rc : RoundCell)
    (orig : Nat → Snapshot) (hc : h.rounds c = some cell)
    (ha : ∀ i, h.arrays cell.Snapshots.array i = orig i) (hr : r ≠ c)
    (hn : cell.Snapshots.array < h.nextArray)
    (hrc : rc.Snapshots.array ≠ cell.Snapshots.array) :
    (h.setRound r rc).Separate c r cell orig := by
  refine ⟨?_, ha, hr, hn, ?_⟩
  · have hcr : ¬ c = r := fun e => hr e.symm
    simp only [Heap.setRound, if_neg hcr]
    exact hc
  · intro rc' hrc'
    simp only [Heap.setRound, if_true, Option.some.injEq] at hrc'
    subst hrc'
    exact hrc

/-- An `append` to the slice of the round at `r`, stored back into it, keeps a
round at `c` out of reach. -/
theorem Heap.separate_append (h : Heap) (capFor : Nat → Nat) (c r : Nat)
    (cell rc : RoundCell) (orig : Nat → Snapshot) (hs : h.Separate c r cell orig)
    (s : Slice) (hsa : s.array ≠ cell.Snapshots.array) (xs : List Snapshot) :
    ((h.append capFor s xs).1.setRound r
      { rc with Snapshots := (h.append capFor s xs).2 }).Separate c r cell orig := by
  obtain ⟨hc, ha, hr, hn, _⟩ := hs
  obtain ⟨a1, _, _, _, a5, a6, a7⟩ := Heap.append_frame h capFor s xs
  have hne : (h.append capFor s xs).2.array ≠ cell.Snapshots.array := by
    rcases a6 with e | e
    · rw [e]; exact hsa
    · rw [e]; omega
  apply Heap.separate_setRound
  · rw [a1]; exact hc
  · intro i
    rw [a7 _ i (fun e => hne e.symm)]
    exact ha i
  · exact hr
  · omega
  · exact hne

/-- A statement on the round at `r` keeps a round at `c` out of reach. -/
theorem Heap.separate_mutate (h h' : Heap) (capFor : Nat → Nat) (c r : Nat)
    (cell : RoundCell) (orig : Nat → Snapshot) (hs : h.Separate c r cell orig)
    (m : Mutation) (hm : h.mutate capFor r m = some h') : h'.Separate c r cell orig := by
  have hs' := hs
  obtain ⟨hc, ha, hr, hn, hrc⟩ := hs'
  cases hR : h.rounds r with
  | none => cases m <;> simp [Heap.mutate, hR] at hm
  | some rc =>
    have hne := hrc rc hR
    have scalar : ∀ rc' : RoundCell, rc'.Snapshots.array = rc.Snapshots.array →
        (h.setRound r rc').Separate c r cell orig := fun rc' e =>
      Heap.separate_setRound h c r cell rc' orig hc ha hr hn (e ▸ hne)
    cases m with
    | setSnapshot i s =>
      simp only [Heap.mutate, hR] at hm
      by_cases hi : i < rc.Snapshots.len
      · rw [if_pos hi] at hm
        injection hm with hm
        subst hm
        obtain ⟨w1, _, w3, _, _, w6, _⟩ := Heap.writeList_frame h rc.Snapshots.array
          (rc.Snapshots.offset + i) [s]
        refine ⟨by rw [w1]; exact hc, ?_, hr, by rw [w3]; exact hn, ?_⟩
        · intro j
          rw [w6 _ j (fun e => hne e.symm)]
          exact ha j
        · intro rc' hrc'
          rw [w1] at hrc'
          exact hrc rc' hrc'
      · rw [if_neg hi] at hm
        exact absurd hm (by simp)
    | appendSnapshot s =>
      simp only [Heap.mutate, hR] at hm
      injection hm with hm
      subst hm
      exact Heap.separate_append h capFor c r cell rc orig hs rc.Snapshots hne [s]
    | reslice lo hi =>
      simp only [Heap.mutate, hR] at hm
      by_cases hb : lo ≤ hi ∧ hi ≤ rc.Snapshots.cap
      · rw [if_pos hb] at hm
        injection hm with hm
        subst hm
        exact scalar _ rfl
      · rw [if_neg hb] at hm
        exact absurd hm (by simp)
    | removeAt i =>
      simp only [Heap.mutate, hR] at hm
      by_cases hi : i < rc.Snapshots.len
      · rw [if_pos hi] at hm
        injection hm with hm
        subst hm
        exact Heap.separate_append h capFor c r cell rc orig hs
          { array := rc.Snapshots.array, offset := rc.Snapshots.offset, len := i,
            cap := rc.Snapshots.cap } hne _
      · rw [if_neg hi] at hm
        exact absurd hm (by simp)
    | setNodeId v =>
      simp only [Heap.mutate, hR, Option.map_some', Option.some.injEq] at hm
      subst hm
      exact scalar _ rfl
    | setNumber v =>
      simp only [Heap.mutate, hR, Option.map_some', Option.some.injEq] at hm
      subst hm
      exact scalar _ rfl
    | setStart v =>
      simp only [Heap.mutate, hR, Option.map_some', Option.some.injEq] at hm
      subst hm
      exact scalar _ rfl
    | setReferences v =>
      simp only [Heap.mutate, hR, Option.map_some', Option.some.injEq] at hm
      subst hm
      exact scalar _ rfl
    | setEnd v =>
      simp only [Heap.mutate, hR, Option.map_some', Option.some.injEq] at hm
      subst hm
      exact scalar _ rfl

/-- A sequence of statements on the round at `r` keeps a round at `c` out of
reach. -/
theorem Heap.separate_mutateAll (h h' : Heap) (capFor : Nat → Nat) (c r : Nat)
    (cell : RoundCell) (orig : Nat → Snapshot) (hs : h.Separate c r cell orig)
    (ms : List Mutation) (hm : h.mutateAll capFor r ms = some h') :
    h'.Separate c r cell orig := by
  induction ms generalizing h with
  | nil =>
    simp only [Heap.mutateAll, Option.some.injEq] at hm
    subst hm
    exact hs
  | cons m ms ih =>
    simp only [Heap.mutateAll] at hm
    cases h1 : h.mutate capFor r m with
    | none => simp [h1] at hm
    | some h'' =>
      simp only [h1] at hm
      exact ih h'' (Heap.separate_mutate h h'' capFor c r cell orig hs m h1) hm

/-- An `append` to an empty slice without capacity returns a slice that holds
the appended elements. -/
theorem Heap.append_literal_read (h : Heap) (capFor : Nat → Nat) (s : Slice)
    (xs : List Snapshot) (hl : s.len = 0) (hcap : s.cap = 0) :
    (h.append capFor s xs).1.readSlice (h.append capFor s xs).2 = xs := by
  cases xs with
  | nil =>
    have e : h.append capFor s [] = (h, { s with len := s.len + 0 }) := by
      unfold Heap.append
      rw [if_pos (by simp [hl])]
      rfl
    rw [e]
    simp [Heap.readSlice, hl]
  | cons x t =>
    have hempty : h.readSlice s = [] := by simp [Heap.readSlice, hl]
    have e : h.append capFor s (x :: t) =
        (Heap.writeList { h with nextArray := h.nextArray + 1 } h.nextArray 0 (x :: t),
          { array := h.nextArray, offset := 0, len := (x :: t).length,
            cap := max (x :: t).length (capFor (x :: t).length) }) := by
      unfold Heap.append
      rw [if_neg (by simp [hl, hcap]), hempty]
      rfl
    rw [e]
    exact Heap.readSlice_writeList _ _ _ _ _

/-- What `Copy` does in memory to an allocated round: it returns a pointer to a
round with the same fields and the same elements, out of whose reach the
source is. -/
theorem Heap.CopyRound_spec (h : Heap) (capFor : Nat → Nat) (c : Nat) (cell : RoundCell)
    (hc : h.rounds c = some cell) (hcr : c < h.nextRound)
    (hca : cell.Snapshots.array < h.nextArray) :
    ∃ h1 r, h.CopyRound capFor c = some (h1, r) ∧
      h1.Separate c r cell (h.arrays cell.Snapshots.array) ∧
      h1.viewRound r = h.viewRound c := by
  have hread : Heap.readSlice { h with nextArray := h.nextArray + 1 } cell.Snapshots =
      h.readSlice cell.Snapshots := rfl
  obtain ⟨a1, a2, _, _, a5, a6, a7⟩ := Heap.append_frame { h with nextArray := h.nextArray + 1 }
    capFor { array := h.nextArray, offset := 0, len := 0, cap := 0 } (h.readSlice cell.Snapshots)
  have hrd := Heap.append_literal_read { h with nextArray := h.nextArray + 1 } capFor
    { array := h.nextArray, offset := 0, len := 0, cap := 0 } (h.readSlice cell.Snapshots) rfl rfl
  have hne : (Heap.append { h with nextArray := h.nextArray + 1 } capFor
      { array := h.nextArray, offset := 0, len := 0, cap := 0 }
      (h.readSlice cell.Snapshots)).2.array ≠ cell.Snapshots.array := by
    rcases a6 with e | e
    · rw [e]; simp only; omega
    · rw [e]; simp only; omega
  have hrc : ¬ c = h.nextRound := by omega
  refine ⟨_, _, by simp only [Heap.CopyRound, hc, hread]; rfl, ⟨?_, ?_, ?_, ?_, ?_⟩, ?_⟩
  · simp only [a2, if_neg hrc, a1]
    exact hc
  · intro i
    simp only
    rw [a7 _ i (fun e => hne e.symm)]
  · simp only [a2]
    omega
  · simp only at a5 ⊢
    omega
  · intro rc hrc'
    simp only [a2, if_true, Option.some.injEq] at hrc'
    subst hrc'
    exact hne
  · simp only [Heap.viewRound, a2, if_true, hc]
    congr 2

theorem CacheRound.Copy_eq (c : CacheRound) : c.Copy = c := by
  simp [CacheRound.Copy]

/-- Assignments to the final round at `r` leave the final round at `f` alone. -/
theorem Heap.setFinals_frame (h h' : Heap) (r f : Nat) (hrf : r ≠ f) (vs : List FinalRound)
    (hv : h.setFinals r vs = some h') : h'.finals f = h.finals f := by
  induction vs generalizing h with
  | nil =>
    simp only [Heap.setFinals, Option.some.injEq] at hv
    subst hv
    rfl
  | cons v vs ih =>
    simp only [Heap.setFinals] at hv
    cases h1 : h.setFinal r v with
    | none => simp [h1] at hv
    | some h'' =>
      simp only [h1] at hv
      rw [ih h'' hv]
      unfold Heap.setFinal at h1
      cases hR : h.finals r with
      | none => simp [hR] at h1
      | some w =>
        simp only [hR, Option.some.injEq] at h1
        subst h1
        have hfr : ¬ f = r := fun e => hrf e.symm
        simp only [if_neg hfr]

/-- C18: on values, `Copy` returns a round equal to its source in every field,
for `CacheRound` and for `FinalRound`. In memory, `Copy` on a pointer `c` to an
allocated `CacheRound` returns another pointer `r`, to a round equal to the
source in every field, element by element; the source is unchanged by the copy,
and it stays as it was whatever statements then change the round at `r`:
assignments to elements of its `Snapshots`, appends, reslices, removals of
elements, assignments to its scalar fields. Likewise `FinalRound.Copy` returns
another pointer to an equal round, and assignments through it leave the source
as it was. -/
theorem Copy_independent (h : Heap) (capFor : Nat → Nat) :
    (∀ c : CacheRound, c.Copy = c) ∧ (∀ f : FinalRound, f.Copy = f) ∧
    (∀ c cell, h.rounds c = some cell → c < h.nextRound →
      cell.Snapshots.array < h.nextArray →
      ∃ h1 r, h.CopyRound capFor c = some (h1, r) ∧ r ≠ c ∧
        h1.viewRound r = h.viewRound c ∧ h1.viewRound c = h.viewRound c ∧
        ∀ ms h2, h1.mutateAll capFor r ms = some h2 → h2.viewRound c = h.viewRound c) ∧
    (∀ f v, h.finals f = some v → f < h.nextFinal →
      ∃ h1 r, h.CopyFinal f = some (h1, r) ∧ r ≠ f ∧ h1.finals r = some v ∧
        h1.finals f = some v ∧
        ∀ vs h2, h1.setFinals r vs = some h2 → h2.finals f = some v) := by
  refine ⟨CacheRound.Copy_eq, fun f => rfl, ?_, ?_⟩
  · intro c cell hc hcr hca
    obtain ⟨h1, r, hcopy, hsep, hview⟩ := Heap.CopyRound_spec h capFor c cell hc hcr hca
    have horig : h.viewRound c = some
        { NodeId := cell.NodeId, Number := cell.Number, Start := cell.Start,
          References := cell.References, End := cell.End,
          Snapshots := (List.range cell.Snapshots.len).map fun i =>
            h.arrays cell.Snapshots.array (cell.Snapshots.offset + i) } := by
      simp only [Heap.viewRound, hc, Heap.readSlice]
    refine ⟨h1, r, hcopy, hsep.2.2.1, hview, ?_, ?_⟩
    · rw [Heap.viewRound_of_separate h1 c r cell _ hsep, horig]
    · intro ms h2 hm
      rw [Heap.viewRound_of_separate h2 c r cell _
        (Heap.separate_mutateAll h1 h2 capFor c r cell _ hsep ms hm), horig]
  · intro f v hf hlt
    have hne : ¬ f = h.nextFinal := by omega
    refine ⟨_, _, by simp only [Heap.CopyFinal, hf]; rfl, fun e => hne e.symm, ?_, ?_, ?_⟩
    · simp
    · simp only [if_neg hne]
      exact hf
    · intro vs h2 hv
      rw [Heap.setFinals_frame _ h2 h.nextFinal f (fun e => hne e.symm) vs hv]
      simp only [if_neg hne]
      exact hf

theorem Copy_independent_witness :
    (∃ h1 r, sampleHeap.CopyRound (fun n => 2 * n) 0 = some (h1, r) ∧ r ≠ 0 ∧
      h1.viewRound r = sampleHeap.viewRound 0 ∧ h1.viewRound 0 = sampleHeap.viewRound 0 ∧
      ∀ ms h2, h1.mutateAll (fun n => 2 * n) r ms = some h2 →
        h2.viewRound 0 = sampleHeap.viewRound 0) ∧
    ∃ h1 r, sampleHeap.CopyFinal 0 = some (h1, r) ∧ r ≠ 0 ∧
      h1.finals r = some { NodeId := hashA, Number := 6, Start := 1, End := 3, Hash := hashP } ∧
      h1.finals 0 = some { NodeId := hashA, Number := 6, Start := 1, End := 3, Hash := hashP } ∧
      ∀ vs h2, h1.setFinals r vs = some h2 →
        h2.finals 0 = some { NodeId := hashA, Number := 6, Start := 1, End := 3, Hash := hashP } :=
  ⟨(Copy_independent sampleHeap (fun n => 2 * n)).2.2.1 0 _ rfl (by decide) (by decide),
    (Copy_independent sampleHeap (fun n => 2 * n)).2.2.2 0 _ rfl (by decide)⟩

/-- The copy of the sample round, changed by an assignment to an element, an
append, a removal and an assignment to a field: the source keeps its three
elements and its number, the copy does not. -/
theorem Copy_sample_mutations :
    ∃ h1 r h2, sampleHeap.CopyRound (fun n => 2 * n) 0 = some (h1, r) ∧
      h1.mutateAll (fun n => 2 * n) r
        [Mutation.setSnapshot 0 (sampleSnapshot 50 5), Mutation.appendSnapshot (sampleSnapshot 60 6),
          Mutation.removeAt 1, Mutation.setNumber 9] = some h2 ∧
      (h2.viewRound 0).map (fun v => (v.Number, v.Snapshots.map Snapshot.Timestamp)) =
        some (7, [1, 2, 3]) ∧
      (h2.viewRound r).map (fun v => (v.Number, v.Snapshots.map Snapshot.Timestamp)) =
        some (9, [50, 3, 60]) :=
  ⟨_, _, _, rfl, rfl, by decide, by decide⟩

/-- C17: sealing is a function of the node id, the number and the snapshots of
the open round: two rounds that agree on the three are sealed alike, whatever
their `Start`, `End` and `References`. And in memory `asFinal` leaves every
round as it was. -/
theorem asFinal_pure (env : Env) :
    (∀ c1 c2 : CacheRound, c1.NodeId = c2.NodeId → c1.Number = c2.Number →
      c1.Snapshots = c2.Snapshots → c1.asFinal env = c2.asFinal env) ∧
    (∀ (h : Heap) (c : Nat) (h' : Heap) (res : Except Panic FinalRound),
      Heap.asFinal env h c = some (h', res) →
      (∀ a, h'.viewRound a = h.viewRound a) ∧
        ∃ v, h.viewRound c = some v ∧ res = v.asFinal env) := by
  constructor
  · intro c1 c2 hId hNum hSn
    unfold CacheRound.asFinal
    rw [hId, hNum, hSn]
  · intro h c h' res hr
    unfold Heap.asFinal at hr
    cases hv : h.viewRound c with
    | none => simp [hv] at hr
    | some v =>
      simp only [hv, Option.some.injEq, Prod.mk.injEq] at hr
      obtain ⟨e1, e2⟩ := hr
      subst e1
      exact ⟨fun _ => rfl, v, rfl, e2.symm⟩

theorem asFinal_pure_witness :
    (sampleRound [sampleSnapshot 5 1, sampleSnapshot 3 2]).asFinal sampleEnv =
      ({ sampleRound [sampleSnapshot 5 1, sampleSnapshot 3 2] with
          Start := 5, End := 99, References := (hashP, hashP) } : CacheRound).asFinal sampleEnv ∧
    ∃ f, (sampleRound [sampleSnapshot 5 1, sampleSnapshot 3 2]).asFinal sampleEnv = Except.ok f :=
  ⟨(asFinal_pure sampleEnv).1 _ _ rfl rfl rfl, _, rfl⟩

end Mixin
